import Mathlib

/-!
Layout detection post-processing: a shallow embedding.

Embedding of the post-processing functions of `LayoutNet.cpp`
(`calculateIoU`, `nmsBoxes`, `parseYOLOv8Output`, the letterbox arithmetic of
`preprocessImage`, `layoutTypeToString`, `generateLayoutMarkdown`, the colour choice of
`drawLayoutDetections`) and of `LayoutNet_improved.cpp` (`preprocessImageLetterbox`,
`nmsBoxesImproved`), together with the properties stated about them.

Conventions of the embedding:
* `float` values are exact rationals (`ℚ`); NaN and infinities are outside the model.
  A value that lies exactly on a rounding boundary in exact arithmetic can round the
  other way in single precision; the statements on the resize target and on the
  letterbox round trip keep a margin from such boundaries.
* `std::sort` promises a sorted permutation and leaves the order among equal keys open.
  `sortByScore` and `sortByTop` fix the stable order; what is proved of `nmsBoxes` and
  `generateLayoutMarkdown` uses only that the result is a sorted permutation.  Where the
  order among equal scores matters, the sort is a parameter bound by `IsScoreSort`
  (`nmsBoxesWith`, `nmsBoxesImprovedWith`).
* `int` values are unbounded integers (`Int`); the coordinates handled here are
  bounded by the image size, far away from the 32-bit range.
* `cv::Point`, `cv::Rect` and their operators `&`, `|`, `area()` follow the
  OpenCV library (`core/types.hpp`).
-/

namespace LayoutNet

/-! ## Data model (`OcrStruct.h`) -/

/-- Integer pixel position, `cv::Point`. -/
structure Point where
  x : Int
  y : Int
deriving DecidableEq, Repr

/-- Integer rectangle `cv::Rect` given by its top-left corner and its size. -/
structure Rect where
  x : Int
  y : Int
  width : Int
  height : Int
deriving DecidableEq, Repr

/-- Detected region `LayoutBox`.  `boxPoint` is the corner vector (TL, TR, BR, BL),
`type` is the numeric value of the `LayoutType` enumerator. -/
structure LayoutBox where
  boxPoint : List Point
  score : ℚ
  type : Int
  typeName : String
  ocrText : String
  hasOcrText : Bool
deriving DecidableEq

/-- Element access `box.boxPoint[i]` of the corner vector. -/
def LayoutBox.pt (b : LayoutBox) (i : Nat) : Point :=
  b.boxPoint.getD i ⟨0, 0⟩

/-! ## `cv::Rect` operations -/

/-- Library `Rect::area()`: width times height. -/
def Rect.area (r : Rect) : Int := r.width * r.height

/-- Library `Rect::empty()`: true when width or height is not positive. -/
def Rect.empty (r : Rect) : Bool := decide (r.width ≤ 0) || decide (r.height ≤ 0)

/-- Library `rect1 & rect2`: the intersection rectangle, `Rect()` when there is none. -/
def Rect.inter (a b : Rect) : Rect :=
  let x1 := max a.x b.x
  let y1 := max a.y b.y
  let w := min (a.x + a.width) (b.x + b.width) - x1
  let h := min (a.y + a.height) (b.y + b.height) - y1
  if w ≤ 0 ∨ h ≤ 0 then ⟨0, 0, 0, 0⟩ else ⟨x1, y1, w, h⟩

/-- Library `rect1 | rect2`: the minimum-area rectangle containing both operands
(an empty operand is ignored). -/
def Rect.bounding (a b : Rect) : Rect :=
  if a.empty then b
  else if b.empty then a
  else
    let x1 := min a.x b.x
    let y1 := min a.y b.y
    ⟨x1, y1, max (a.x + a.width) (b.x + b.width) - x1,
      max (a.y + a.height) (b.y + b.height) - y1⟩

/-- Rectangle built by `calculateIoU` from the TL and BR corners of a box. -/
def rectOf (b : LayoutBox) : Rect :=
  ⟨(b.pt 0).x, (b.pt 0).y, (b.pt 2).x - (b.pt 0).x, (b.pt 2).y - (b.pt 0).y⟩

/-- Source function `LayoutNet::calculateIoU`. -/
def calculateIoU (box1 box2 : LayoutBox) : ℚ :=
  let rect1 := rectOf box1
  let rect2 := rectOf box2
  let intersection := rect1.inter rect2
  let union_ := rect1.bounding rect2
  if union_.area = 0 then 0
  else (intersection.area : ℚ) / (union_.area : ℚ)

/-- Axis-aligned box with the given TL and BR corners, in TL, TR, BR, BL order. -/
def mkBox (x1 y1 x2 y2 : Int) (score : ℚ) (type : Int) (name : String) : LayoutBox :=
  { boxPoint := [⟨x1, y1⟩, ⟨x2, y1⟩, ⟨x2, y2⟩, ⟨x1, y2⟩], score := score, type := type,
    typeName := name, ocrText := "", hasOcrText := false }

/-- Intersection over union in the words of the specification: the area of the
intersection of the two rectangles over `area1 + area2 - intersection area`. -/
def iouSpec (box1 box2 : LayoutBox) : ℚ :=
  let inter := ((rectOf box1).inter (rectOf box2)).area
  (inter : ℚ) / (((rectOf box1).area + (rectOf box2).area - inter : Int) : ℚ)

/-- Non-degenerate box: the BR corner lies strictly right of and below the TL corner. -/
def LayoutBox.nonDegenerate (b : LayoutBox) : Prop :=
  (b.pt 0).x < (b.pt 2).x ∧ (b.pt 0).y < (b.pt 2).y

instance (b : LayoutBox) : Decidable b.nonDegenerate := by
  unfold LayoutBox.nonDegenerate; infer_instance

/-! ## Per-class duplicate suppression (`nmsBoxes`) -/

/-- The statement `classGroups[k].push_back(b)` on a `std::map<int, std::vector<LayoutBox>>`,
kept as an association list with strictly increasing keys (the iteration order of the map). -/
def groupPush (m : List (Int × List LayoutBox)) (k : Int) (b : LayoutBox) :
    List (Int × List LayoutBox) :=
  match m with
  | [] => [(k, [b])]
  | (k', v) :: rest =>
    if k < k' then (k, [b]) :: (k', v) :: rest
    else if k = k' then (k', v ++ [b]) :: rest
    else (k', v) :: groupPush rest k b

/-- First loop of `nmsBoxes`: group the boxes by `static_cast<int>(box.type)`. -/
def classGroups (boxes : List LayoutBox) : List (Int × List LayoutBox) :=
  boxes.foldl (fun m box => groupPush m box.type box) []

/-- The call `std::sort` with comparator `a.score > b.score`: descending by score.
The order among equal scores, which `std::sort` leaves open, is fixed to the stable one. -/
def sortByScore (l : List LayoutBox) : List LayoutBox :=
  l.insertionSort (fun a b => b.score ≤ a.score)

/-- Inner loop over `j`: `if (!suppressed[j] && IoU(b, classBoxes[j]) > thr) suppressed[j] = true`
for every position after the survivor `b`. -/
def markSuppressed (thr : ℚ) (b : LayoutBox) : List LayoutBox → List Bool → List Bool
  | [], _ => []
  | c :: cs, flags =>
    (flags.headD false || decide (thr < calculateIoU b c)) :: markSuppressed thr b cs flags.tail

/-- Outer loop over `i`, run on the boxes from position `i` on together with their
`suppressed` flags; returns `classResult`. -/
def nmsLoop (thr : ℚ) : List LayoutBox → List Bool → List LayoutBox
  | [], _ => []
  | b :: rest, flags =>
    if flags.headD false then nmsLoop thr rest flags.tail
    else b :: nmsLoop thr rest (markSuppressed thr b rest flags.tail)

/-- Body of the per-class loop: sort the class by descending score, start with no box
suppressed and run the suppression loop. -/
def nmsClass (thr : ℚ) (classBoxes : List LayoutBox) : List LayoutBox :=
  let sorted := sortByScore classBoxes
  nmsLoop thr sorted (List.replicate sorted.length false)

/-- Source function `LayoutNet::nmsBoxes`. -/
def nmsBoxes (boxes : List LayoutBox) (iouThreshold : ℚ) : List LayoutBox :=
  if boxes.isEmpty then boxes
  else (classGroups boxes).foldl (fun result pair => result ++ nmsClass iouThreshold pair.2) []

/-! ## Letterbox arithmetic and decoder (`preprocessImage`, `parseYOLOv8Output`) -/

/-- Network input width `INPUT_WIDTH`. -/
def INPUT_WIDTH : Int := 1024

/-- Network input height `INPUT_HEIGHT`. -/
def INPUT_HEIGHT : Int := 1024

/-- The category table `DOCLAYOUT_CLASSES`. -/
def DOCLAYOUT_CLASSES : List String :=
  ["title", "plain text", "abandon", "figure", "figure_caption",
   "table", "table_caption", "table_footnote", "isolate_formula", "formula_caption"]

/-- C library `round`: nearest integer, halfway cases away from zero. -/
def cRound (q : ℚ) : Int := if 0 ≤ q then ⌊q + 1 / 2⌋ else -⌊-q + 1 / 2⌋

/-- Conversion `static_cast<int>` of a float: truncation toward zero. -/
def toInt (q : ℚ) : Int := if 0 ≤ q then ⌊q⌋ else -⌊-q⌋

/-- Values computed by `preprocessImage` before any pixel is touched. -/
structure Letterbox where
  r : ℚ
  newW : Int
  newH : Int
  dw : ℚ
  dh : ℚ
  padW : Int
  padH : Int
  padBottom : Int
  padRight : Int
deriving DecidableEq

/-- Arithmetic part of `LayoutNet::preprocessImage` for a source of the given size. -/
def preprocessImage (width height : Int) : Letterbox :=
  let r := min ((INPUT_WIDTH : ℚ) / width) ((INPUT_HEIGHT : ℚ) / height)
  let newW := cRound (width * r)
  let newH := cRound (height * r)
  let dw : ℚ := ((INPUT_WIDTH - newW : Int) : ℚ)
  let dh : ℚ := ((INPUT_HEIGHT - newH : Int) : ℚ)
  { r := r, newW := newW, newH := newH, dw := dw, dh := dh,
    padW := cRound (dw / 2 - 1 / 10),
    padH := cRound (dh / 2 - 1 / 10),
    padBottom := cRound (dh / 2 + 1 / 10),
    padRight := cRound (dw / 2 + 1 / 10) }

/-- The scale `gain` recomputed by `parseYOLOv8Output` from the source size. -/
def decoderGain (cols rows : Int) : ℚ :=
  min ((INPUT_WIDTH : ℚ) / cols) ((INPUT_HEIGHT : ℚ) / rows)

/-- The horizontal offset `padW` recomputed by `parseYOLOv8Output`. -/
def decoderPadW (cols rows : Int) : Int :=
  cRound (((INPUT_WIDTH : ℚ) - cols * decoderGain cols rows) / 2 - 1 / 10)

/-- The vertical offset `padH` recomputed by `parseYOLOv8Output`. -/
def decoderPadH (cols rows : Int) : Int :=
  cRound (((INPUT_HEIGHT : ℚ) - rows * decoderGain cols rows) / 2 - 1 / 10)

/-- Read `outputData[idx]` from the flat tensor buffer. -/
def readAt (outputData : List ℚ) (idx : Int) : ℚ :=
  if idx < 0 then 0 else outputData.getD idx.toNat 0

/-- The clipping `std::max(0.0f, std::min(v, bound))`. -/
def clip (v : ℚ) (bound : Int) : ℚ := max 0 (min v (bound : ℚ))

/-- One iteration of the candidate loop of `parseYOLOv8Output`: `none` when the
iteration ends in `continue`, otherwise the box that is pushed. -/
def parseCandidate (outputData : List ℚ) (numFeatures cols rows : Int) (confThreshold : ℚ)
    (i : Nat) : Option LayoutBox :=
  let gain := decoderGain cols rows
  let padW := decoderPadW cols rows
  let padH := decoderPadH cols rows
  let x1 := readAt outputData (i * numFeatures + 0)
  let y1 := readAt outputData (i * numFeatures + 1)
  let x2 := readAt outputData (i * numFeatures + 2)
  let y2 := readAt outputData (i * numFeatures + 3)
  let confidence := readAt outputData (i * numFeatures + 4)
  let classId := toInt (readAt outputData (i * numFeatures + 5))
  if confidence < confThreshold ∨ classId < 0 ∨ classId ≥ 10 then none
  else if classId < 0 ∨ classId ≥ (DOCLAYOUT_CLASSES.length : Int) then none
  else
    let x1 := clip ((x1 - padW) / gain) cols
    let y1 := clip ((y1 - padH) / gain) rows
    let x2 := clip ((x2 - padW) / gain) cols
    let y2 := clip ((y2 - padH) / gain) rows
    if x2 ≤ x1 ∨ y2 ≤ y1 then none
    else some
      { boxPoint := [⟨toInt x1, toInt y1⟩, ⟨toInt x2, toInt y1⟩,
                     ⟨toInt x2, toInt y2⟩, ⟨toInt x1, toInt y2⟩],
        score := confidence,
        type := classId,
        typeName := DOCLAYOUT_CLASSES.getD classId.toNat "",
        ocrText := "",
        hasOcrText := false }

/-- Source function `LayoutNet::parseYOLOv8Output`; `cols` and `rows` are the size of
the source image `src`. -/
def parseYOLOv8Output (outputData : List ℚ) (outputShape : List Int) (cols rows : Int)
    (confThreshold : ℚ) : List LayoutBox :=
  if outputShape.length ≠ 3 then []
  else
    let numDetections := outputShape.getD 1 0
    let numFeatures := outputShape.getD 2 0
    (List.range numDetections.toNat).filterMap
      (parseCandidate outputData numFeatures cols rows confThreshold)

/-- Position of a source coordinate in the padded network input, as `preprocessImage`
lays the picture out: scale by the gain, then shift by the left or top padding. -/
def letterboxCoord (gain : ℚ) (pad : Int) (v : Int) : ℚ := (v : ℚ) * gain + (pad : ℚ)

/-- Boxes of the class whose `suppressed` flag is not set. -/
def alive : List LayoutBox → List Bool → List LayoutBox
  | [], _ => []
  | c :: cs, flags =>
    if flags.headD false then alive cs flags.tail else c :: alive cs flags.tail

/-! ## Sample inputs -/

/-- Two overlapping 2x2 squares, shifted by one pixel in both directions. -/
def squareAt0 : LayoutBox := mkBox 0 0 2 2 (9 / 10) 0 "title"

/-- Second square of the overlapping pair. -/
def squareAt1 : LayoutBox := mkBox 1 1 3 3 (4 / 5) 0 "title"

/-- A title box with score 1/2. -/
def boxA : LayoutBox := mkBox 0 0 2 2 (1 / 2) 0 "title"

/-- A title box far away from `boxA`, score 3/4. -/
def boxB : LayoutBox := mkBox 10 10 12 12 (3 / 4) 0 "title"

/-- A title box covering `boxA`, score 1/4. -/
def boxC : LayoutBox := mkBox 0 0 2 3 (1 / 4) 0 "title"

/-- Three detections of one category; `boxC` duplicates `boxA`. -/
def sampleBoxes : List LayoutBox := [boxA, boxB, boxC]

/-- The box is within one pixel of the rectangle with TL `(x1, y1)` and BR `(x2, y2)`. -/
def withinOnePixel (b : LayoutBox) (x1 y1 x2 y2 : Int) : Prop :=
  |(b.pt 0).x - x1| ≤ 1 ∧ |(b.pt 0).y - y1| ≤ 1 ∧ |(b.pt 2).x - x2| ≤ 1 ∧ |(b.pt 2).y - y2| ≤ 1

instance (b : LayoutBox) (x1 y1 x2 y2 : Int) : Decidable (withinOnePixel b x1 y1 x2 y2) := by
  unfold withinOnePixel; infer_instance

/-- Letterbox round trip: the box `(x1, y1)-(x2, y2)` of a `width` x `height` source is
placed in the padded input with the gain and paddings of `preprocessImage`, and the
single resulting candidate row is decoded by `parseYOLOv8Output` for the same source. -/
def letterboxRoundTrip (width height x1 y1 x2 y2 : Int) (conf : ℚ) (classId : Int) (thr : ℚ) :
    List LayoutBox :=
  let p := preprocessImage width height
  parseYOLOv8Output
    [letterboxCoord p.r p.padW x1, letterboxCoord p.r p.padH y1,
     letterboxCoord p.r p.padW x2, letterboxCoord p.r p.padH y2, conf, (classId : ℚ)]
    [1, 1, 6] width height thr

/-- One candidate row whose class-id column holds -1/2. -/
def rowClassMinusHalf : List ℚ := [0, 0, 10, 10, 7 / 8, -1 / 2]

/-- One candidate row whose box lies inside a single pixel. -/
def rowInsidePixel : List ℚ := [1 / 4, 1 / 4, 3 / 4, 3 / 4, 7 / 8, 0]

/-- One candidate row of seven columns. -/
def rowSevenColumns : List ℚ := [0, 0, 10, 10, 7 / 8, 0, 0]

/-! ## Candidate acceptance in the words of the specification -/

/-- Inverse letterbox of one padded-space coordinate followed by the clipping into
`[0, bound]`: `x' = (x - pad) / gain`, clipped. -/
def invertCoord (v : ℚ) (pad : Int) (gain : ℚ) (bound : Int) : ℚ :=
  clip ((v - (pad : ℚ)) / gain) bound

/-- Confidence column of candidate `i`. -/
def candConfidence (data : List ℚ) (numFeatures : Int) (i : Nat) : ℚ :=
  readAt data (i * numFeatures + 4)

/-- Class id of candidate `i`: the sixth column converted to an integer. -/
def candClassId (data : List ℚ) (numFeatures : Int) (i : Nat) : Int :=
  toInt (readAt data (i * numFeatures + 5))

/-- Left edge of candidate `i` in source coordinates. -/
def candX1 (data : List ℚ) (numFeatures cols rows : Int) (i : Nat) : ℚ :=
  invertCoord (readAt data (i * numFeatures + 0)) (decoderPadW cols rows)
    (decoderGain cols rows) cols

/-- Top edge of candidate `i` in source coordinates. -/
def candY1 (data : List ℚ) (numFeatures cols rows : Int) (i : Nat) : ℚ :=
  invertCoord (readAt data (i * numFeatures + 1)) (decoderPadH cols rows)
    (decoderGain cols rows) rows

/-- Right edge of candidate `i` in source coordinates. -/
def candX2 (data : List ℚ) (numFeatures cols rows : Int) (i : Nat) : ℚ :=
  invertCoord (readAt data (i * numFeatures + 2)) (decoderPadW cols rows)
    (decoderGain cols rows) cols

/-- Bottom edge of candidate `i` in source coordinates. -/
def candY2 (data : List ℚ) (numFeatures cols rows : Int) (i : Nat) : ℚ :=
  invertCoord (readAt data (i * numFeatures + 3)) (decoderPadH cols rows)
    (decoderGain cols rows) rows

/-- Acceptance of candidate `i` in the words of the specification: confidence at least
the threshold, class id inside `[0, 10)`, and a box that is not degenerate after
inversion and clipping. -/
def candAccepted (data : List ℚ) (numFeatures cols rows : Int) (thr : ℚ) (i : Nat) : Prop :=
  thr ≤ candConfidence data numFeatures i ∧
  0 ≤ candClassId data numFeatures i ∧ candClassId data numFeatures i < 10 ∧
  candX1 data numFeatures cols rows i < candX2 data numFeatures cols rows i ∧
  candY1 data numFeatures cols rows i < candY2 data numFeatures cols rows i

instance (data : List ℚ) (numFeatures cols rows : Int) (thr : ℚ) (i : Nat) :
    Decidable (candAccepted data numFeatures cols rows thr i) := by
  unfold candAccepted; infer_instance

/-- Region the specification builds from an accepted candidate: corners TL, TR, BR, BL,
score the confidence, category the class id, name from the category table, no OCR text. -/
def candRegion (data : List ℚ) (numFeatures cols rows : Int) (i : Nat) : LayoutBox :=
  mkBox (toInt (candX1 data numFeatures cols rows i)) (toInt (candY1 data numFeatures cols rows i))
    (toInt (candX2 data numFeatures cols rows i)) (toInt (candY2 data numFeatures cols rows i))
    (candConfidence data numFeatures i) (candClassId data numFeatures i)
    (DOCLAYOUT_CLASSES.getD (candClassId data numFeatures i).toNat "")

/-- The point is within one pixel of the position `(x, y)`. -/
def nearPoint (p : Point) (x y : ℚ) : Prop :=
  |(p.x : ℚ) - x| ≤ 1 ∧ |(p.y : ℚ) - y| ≤ 1

instance (p : Point) (x y : ℚ) : Decidable (nearPoint p x y) := by
  unfold nearPoint; infer_instance

/-- The candidate of the worked example: `(100, 356)-(300, 456)`, confidence 0.9, class 0. -/
def scenarioRow : List ℚ := [100, 356, 300, 456, 9 / 10, 0]

/-- One candidate row with confidence 0.1. -/
def rowLowConfidence : List ℚ := [0, 0, 10, 10, 1 / 10, 0]

/-! ## Category enumeration (`LayoutType`, `layoutTypeToString`) -/

/-- The enumeration `LayoutType` of `OcrStruct.h`. -/
inductive LayoutType where
  | TITLE
  | PLAIN_TEXT
  | ABANDON
  | FIGURE
  | FIGURE_CAPTION
  | TABLE
  | TABLE_CAPTION
  | TABLE_FOOTNOTE
  | ISOLATE_FORMULA
  | FORMULA_CAPTION
  | UNKNOWN
deriving DecidableEq, Repr

/-- Numeric value of an enumerator, `static_cast<int>(type)`. -/
def LayoutType.value : LayoutType → Int
  | .TITLE => 0
  | .PLAIN_TEXT => 1
  | .ABANDON => 2
  | .FIGURE => 3
  | .FIGURE_CAPTION => 4
  | .TABLE => 5
  | .TABLE_CAPTION => 6
  | .TABLE_FOOTNOTE => 7
  | .ISOLATE_FORMULA => 8
  | .FORMULA_CAPTION => 9
  | .UNKNOWN => -1

/-- All enumerators of `LayoutType`, in declaration order. -/
def LayoutType.all : List LayoutType :=
  [.TITLE, .PLAIN_TEXT, .ABANDON, .FIGURE, .FIGURE_CAPTION, .TABLE, .TABLE_CAPTION,
   .TABLE_FOOTNOTE, .ISOLATE_FORMULA, .FORMULA_CAPTION, .UNKNOWN]

/-- Source function `LayoutNet::layoutTypeToString`. -/
def layoutTypeToString (type : LayoutType) : String :=
  let classId := type.value
  if classId ≥ 0 ∧ classId < (DOCLAYOUT_CLASSES.length : Int) then
    DOCLAYOUT_CLASSES.getD classId.toNat ""
  else "unknown"

/-- The ordered category names as the specification lists them. -/
def specCategoryNames : List String :=
  ["title", "plain_text", "abandon", "figure", "figure_caption",
   "table", "table_caption", "table_footnote", "isolate_formula", "formula_caption"]

/-! ## Markdown synthesis (`generateLayoutMarkdown`) -/

/-- The call `std::sort` with comparator `a.boxPoint[0].y < b.boxPoint[0].y`: ascending by
top edge.  The order among equal top edges, which `std::sort` leaves open, is fixed to the
stable one. -/
def sortByTop (l : List LayoutBox) : List LayoutBox :=
  l.insertionSort (fun a b => (a.pt 0).y ≤ (b.pt 0).y)

/-- The statement `classCounts[name]++` on a `std::map<std::string, int>`, kept as an
association list with strictly increasing keys. -/
def countPush (m : List (String × Int)) (k : String) : List (String × Int) :=
  match m with
  | [] => [(k, 1)]
  | (k', n) :: rest =>
    if k < k' then (k, 1) :: (k', n) :: rest
    else if k = k' then (k', n + 1) :: rest
    else (k', n) :: countPush rest k

/-- The counting loop over `sortedBoxes`. -/
def classCounts (sortedBoxes : List LayoutBox) : List (String × Int) :=
  sortedBoxes.foldl (fun m box => countPush m box.typeName) []

/-- Display transform: `std::replace` of every underscore by a space, then
`displayName[0] = std::toupper(displayName[0])`. -/
def displayName (typeName : String) : String :=
  (typeName.map (fun c => if c = '_' then ' ' else c)).capitalize

/-- One bullet of the summary block. -/
def summaryBullet (pair : String × Int) : String :=
  "- **" ++ displayName pair.1 ++ "**: " ++ toString pair.2 ++ "\n"

/-- The text `std::to_string(static_cast<int>(box.score * 100))`. -/
def confidencePercent (box : LayoutBox) : String := toString (toInt (box.score * 100))

/-- Body of the structure loop for the box at position `i` of `sortedBoxes`. -/
def structureEntry (i : Nat) (box : LayoutBox) : String :=
  if box.typeName = "title" then
    "### " ++ displayName box.typeName ++ " " ++ toString (i + 1) ++ "\n\n"
  else if box.typeName = "plain text" then
    "**Text Region** (Confidence: " ++ confidencePercent box ++ "%)\n\n" ++
    ("> Location: (" ++ toString (box.pt 0).x ++ ", " ++ toString (box.pt 0).y ++ ") → (" ++
      toString (box.pt 2).x ++ ", " ++ toString (box.pt 2).y ++ ")\n\n")
  else if box.typeName = "figure" then
    "**Figure/Image** (Confidence: " ++ confidencePercent box ++ "%)\n\n" ++
    ("![Figure](image://" ++ toString i ++ ")\n\n") ++
    ("*Figure location: (" ++ toString (box.pt 0).x ++ ", " ++ toString (box.pt 0).y ++ ")*\n\n")
  else if box.typeName = "table" then
    "**Table** (Confidence: " ++ confidencePercent box ++ "%)\n\n" ++
    "| Column 1 | Column 2 | Column 3 |\n" ++
    "|----------|----------|----------|\n" ++
    "| Data 1   | Data 2   | Data 3   |\n" ++
    "| Data 4   | Data 5   | Data 6   |\n\n"
  else
    "**" ++ displayName box.typeName ++ "** (Confidence: " ++ confidencePercent box ++ "%)\n\n"

/-- The structure loop `for (i = 0; i < sortedBoxes.size(); ++i)`, run from position `i`. -/
def structureLoop (markdown : String) (i : Nat) : List LayoutBox → String
  | [] => markdown
  | box :: rest => structureLoop (markdown ++ structureEntry i box) (i + 1) rest

/-- The loop over `DOCLAYOUT_CLASSES` that writes the supported formats, from position `i`. -/
def formatsLoop (markdown : String) (i : Nat) : List String → String
  | [] => markdown
  | className :: rest =>
    formatsLoop ((if i > 0 then markdown ++ ", " else markdown) ++ className.capitalize)
      (i + 1) rest

/-- Source function `LayoutNet::generateLayoutMarkdown`, applied to the fields
`layoutBoxes` and `layoutNetTime` of the result. -/
def generateLayoutMarkdown (layoutBoxes : List LayoutBox) (layoutNetTime : ℚ) : String :=
  if layoutBoxes.isEmpty then "# Document Analysis Results\n\nNo layout regions detected."
  else
    let markdown := "# Document Layout Analysis (DOCLAYOUT_DOCSTRUCTBENCH)\n\n"
    let sortedBoxes := sortByTop layoutBoxes
    let counts := classCounts sortedBoxes
    let markdown := markdown ++ "## Document Summary\n\n"
    let markdown := counts.foldl (fun md pair => md ++ summaryBullet pair) markdown
    let markdown := markdown ++ "\n"
    let markdown := markdown ++ "## Document Structure\n\n"
    let markdown := structureLoop markdown 0 sortedBoxes
    let markdown := markdown ++ "---\n\n"
    let markdown := markdown ++ "## Analysis Details\n\n"
    let markdown := markdown ++ ("- **Total Regions**: " ++ toString layoutBoxes.length ++ "\n")
    let markdown := markdown ++
      ("- **Processing Time**: " ++ toString (toInt layoutNetTime) ++ "ms\n")
    let markdown := markdown ++ "- **Analysis Model**: DOCLAYOUT_DOCSTRUCTBENCH (YOLOv8-based)\n"
    let markdown := markdown ++ "- **Supported Formats**: "
    let markdown := formatsLoop markdown 0 DOCLAYOUT_CLASSES
    let markdown := markdown ++ "\n\n"
    let markdown := markdown ++ "## Generated By\n\n"
    let markdown := markdown ++ "**Layout2Markdown** - Intelligent Document Layout Analysis\n\n"
    let markdown := markdown ++ "*Features:*\n"
    let markdown := markdown ++
      "- 📄 **High-Precision Detection**: DOCLAYOUT_DOCSTRUCTBENCH model\n"
    let markdown := markdown ++
      "- 🔍 **10 Layout Categories**: Comprehensive document element recognition\n"
    let markdown := markdown ++
      "- ⚡ **Real-time Processing**: Optimized ONNX runtime inference\n"
    let markdown := markdown ++ "- 📱 **Mobile Optimized**: Efficient Android deployment\n\n"
    markdown

/-! ## The sections of the markdown document -/

/-- Concatenation of a list of text pieces. -/
def concatAll : List String → String
  | [] => ""
  | s :: rest => s ++ concatAll rest

/-- The entries of the structure section: one per box, numbered from `i`. -/
def structureEntries (i : Nat) : List LayoutBox → List String
  | [] => []
  | box :: rest => structureEntry i box :: structureEntries (i + 1) rest

/-- The pieces of the supported-formats line, numbered from `i`. -/
def formatsPieces (i : Nat) : List String → List String
  | [] => []
  | className :: rest =>
    ((if i > 0 then ", " else "") ++ className.capitalize) :: formatsPieces (i + 1) rest

/-- The pairs (category name, count) shown in the summary block, in bullet order. -/
def summaryPairs (layoutBoxes : List LayoutBox) : List (String × Int) :=
  classCounts (sortByTop layoutBoxes)

/-- First line of the document. -/
def titleBlock : String := "# Document Layout Analysis (DOCLAYOUT_DOCSTRUCTBENCH)\n\n"

/-- The block headed "Document Summary": one bullet per pair of `summaryPairs`. -/
def summaryBlock (layoutBoxes : List LayoutBox) : String :=
  "## Document Summary\n\n" ++
    (concatAll ((summaryPairs layoutBoxes).map summaryBullet) ++ "\n")

/-- The block headed "Document Structure": the entries of the boxes sorted by top edge. -/
def structureBlock (layoutBoxes : List LayoutBox) : String :=
  "## Document Structure\n\n" ++ concatAll (structureEntries 0 (sortByTop layoutBoxes))

/-- The trailing statistics and credits. -/
def detailsBlock (layoutBoxes : List LayoutBox) (layoutNetTime : ℚ) : String :=
  "---\n\n" ++ ("## Analysis Details\n\n" ++
  (("- **Total Regions**: " ++ toString layoutBoxes.length ++ "\n") ++
  (("- **Processing Time**: " ++ toString (toInt layoutNetTime) ++ "ms\n") ++
  ("- **Analysis Model**: DOCLAYOUT_DOCSTRUCTBENCH (YOLOv8-based)\n" ++
  ("- **Supported Formats**: " ++ (concatAll (formatsPieces 0 DOCLAYOUT_CLASSES) ++
  ("\n\n" ++ ("## Generated By\n\n" ++
  ("**Layout2Markdown** - Intelligent Document Layout Analysis\n\n" ++ ("*Features:*\n" ++
  ("- 📄 **High-Precision Detection**: DOCLAYOUT_DOCSTRUCTBENCH model\n" ++
  ("- 🔍 **10 Layout Categories**: Comprehensive document element recognition\n" ++
  ("- ⚡ **Real-time Processing**: Optimized ONNX runtime inference\n" ++
  "- 📱 **Mobile Optimized**: Efficient Android deployment\n\n")))))))))))))

/-- Three regions given out of reading order: a figure, a title above it, a second title. -/
def pageBoxes : List LayoutBox :=
  [mkBox 0 50 10 60 (1 / 2) 3 "figure", mkBox 0 5 10 9 (3 / 4) 0 "title",
   mkBox 0 70 10 80 (1 / 4) 0 "title"]

/-! ## Display names in the words of the specification -/

/-- Every underscore replaced by a space. -/
def underscoresToSpaces (cs : List Char) : List Char :=
  cs.map (fun c => if c = '_' then ' ' else c)

/-- Title case of a character sequence: the first letter of every word is upper-cased;
`atStart` tells whether the next character starts a word. -/
def titleCaseChars : Bool → List Char → List Char
  | _, [] => []
  | atStart, c :: cs => (if atStart then c.toUpper else c) :: titleCaseChars (c == ' ') cs

/-- Display name as the specification words it: underscores to spaces, then title case. -/
def titleCaseSpec (name : String) : String :=
  String.mk (titleCaseChars true (underscoresToSpaces name.data))

/-- Underscores to spaces, then only the first character upper-cased. -/
def firstUpperSpec (name : String) : String :=
  match underscoresToSpaces name.data with
  | [] => ""
  | c :: cs => String.mk (c.toUpper :: cs)

/-! ## Overlay colours (`getLayoutColor`, `drawMask`, `drawLayoutDetections`) -/

/-- Colour `cv::Scalar(B, G, R)`. -/
structure Scalar where
  b : Nat
  g : Nat
  r : Nat
deriving DecidableEq, Repr

/-- Source function `LayoutNet::getLayoutColor`.  The C library call `rand()` reads and
advances a hidden generator state; the generator is the parameter `rand` and its state is
passed explicitly, the three calls being made from left to right. -/
def getLayoutColor {σ : Type} (rand : σ → Nat × σ) (_type : Int) (s : σ) : Scalar × σ :=
  let d1 := rand s
  let d2 := rand d1.2
  let d3 := rand d2.2
  (⟨d1.1 % 256, d2.1 % 256, d3.1 % 256⟩, d3.2)

/-- Colours chosen by the loop of `drawMask`, one call of `getLayoutColor` per box. -/
def drawMaskColors {σ : Type} (rand : σ → Nat × σ) : List LayoutBox → σ → List Scalar × σ
  | [], s => ([], s)
  | box :: rest, s =>
    let c := getLayoutColor rand box.type s
    let cs := drawMaskColors rand rest c.2
    (c.1 :: cs.1, cs.2)

/-- Colours chosen by the loop of `drawLayoutDetections` for the borders and labels. -/
def drawBoxColors {σ : Type} (rand : σ → Nat × σ) : List LayoutBox → σ → List Scalar × σ
  | [], s => ([], s)
  | box :: rest, s =>
    let c := getLayoutColor rand box.type s
    let cs := drawBoxColors rand rest c.2
    (c.1 :: cs.1, cs.2)

/-- Colour choices of `LayoutNet::drawLayoutDetections`: the fill colours of the mask
and, after them, the border colours, in box order. -/
def drawLayoutDetections {σ : Type} (rand : σ → Nat × σ) (boxes : List LayoutBox) (s : σ) :
    (List Scalar × List Scalar) × σ :=
  if boxes.isEmpty then (([], []), s)
  else
    let mask := drawMaskColors rand boxes s
    let border := drawBoxColors rand boxes mask.2
    ((mask.1, border.1), border.2)

/-- The portable implementation of `rand` printed in the C standard, used as a sample
generator: `next = next * 1103515245 + 12345; return (next / 65536) % 32768`. -/
def stdRand (next : Nat) : Nat × Nat :=
  let n := (next * 1103515245 + 12345) % 2 ^ 32
  ((n / 65536) % 32768, n)

/-! ## Second letterbox (`LayoutNetImproved::preprocessImageLetterbox`) -/

/-- The structure `PreprocessParams` of `LayoutNet_improved.cpp`. -/
structure PreprocessParams where
  gain : ℚ
  padW : Int
  padH : Int
  originalWidth : Int
  originalHeight : Int
deriving DecidableEq

/-- Values computed by `preprocessImageLetterbox`: the recorded parameters, the resized
size, and the size of the image after `copyMakeBorder`. -/
structure LetterboxImproved where
  params : PreprocessParams
  newWidth : Int
  newHeight : Int
  paddedWidth : Int
  paddedHeight : Int
deriving DecidableEq

/-- Arithmetic part of `LayoutNetImproved::preprocessImageLetterbox`. -/
def preprocessImageLetterbox (cols rows : Int) : LetterboxImproved :=
  let gain := min ((INPUT_WIDTH : ℚ) / cols) ((INPUT_HEIGHT : ℚ) / rows)
  let newWidth := toInt (cols * gain)
  let newHeight := toInt (rows * gain)
  let padW := cRound (((INPUT_WIDTH - newWidth : Int) : ℚ) / 2 - 1 / 10)
  let padH := cRound (((INPUT_HEIGHT - newHeight : Int) : ℚ) / 2 - 1 / 10)
  { params := { gain := gain, padW := padW, padH := padH,
                originalWidth := cols, originalHeight := rows },
    newWidth := newWidth, newHeight := newHeight,
    paddedWidth := newWidth + padW + padW,
    paddedHeight := newHeight + padH + padH }

/-! ## Second duplicate suppression (`LayoutNetImproved::nmsBoxesImproved`) -/

/-- Element access `boxes[i]` of a box vector. -/
def boxAt (boxes : List LayoutBox) (i : Nat) : LayoutBox :=
  boxes.getD i (mkBox 0 0 0 0 0 0 "")

/-- The statement `classBoxes[k].push_back(i)` on a `std::map<int, std::vector<size_t>>`,
kept as an association list with strictly increasing keys. -/
def indexPush (m : List (Int × List Nat)) (k : Int) (i : Nat) : List (Int × List Nat) :=
  match m with
  | [] => [(k, [i])]
  | (k', v) :: rest =>
    if k < k' then (k, [i]) :: (k', v) :: rest
    else if k = k' then (k', v ++ [i]) :: rest
    else (k', v) :: indexPush rest k i

/-- The loop that files every position `i` of the sorted vector under the category of
`boxes[i]`. -/
def classIndices (boxes : List LayoutBox) : List (Int × List Nat) :=
  boxes.enum.foldl (fun m ib => indexPush m ib.2.type ib.1) []

/-- Inner loop over `j` of `nmsBoxesImproved`: for every later index `jdx` of the class,
`if (!suppressed[jdx] && IoU(boxes[idx], boxes[jdx]) > thr) suppressed[jdx] = true`. -/
def markImproved (thr : ℚ) (boxes : List LayoutBox) (idx : Nat) :
    List Nat → List Bool → List Bool
  | [], suppressed => suppressed
  | jdx :: rest, suppressed =>
    markImproved thr boxes idx rest
      (if (!suppressed.getD jdx false
            && decide (thr < calculateIoU (boxAt boxes idx) (boxAt boxes jdx))) = true
        then suppressed.set jdx true else suppressed)

/-- Loop over the indices of one class; the state is the pair of `result` and the
`suppressed` vector shared by all classes. -/
def improvedClassLoop (thr : ℚ) (boxes : List LayoutBox) :
    List Nat → List LayoutBox × List Bool → List LayoutBox × List Bool
  | [], st => st
  | idx :: rest, st =>
    if st.2.getD idx false = true then improvedClassLoop thr boxes rest st
    else improvedClassLoop thr boxes rest
      (st.1 ++ [boxAt boxes idx], markImproved thr boxes idx rest st.2)

/-- What the C++ standard guarantees of the call `std::sort` with comparator
`a.score > b.score`: the result is a permutation of the vector in which no element has a
smaller score than an earlier one.  The order among equal scores is left open. -/
def IsScoreSort (srt : List LayoutBox → List LayoutBox) : Prop :=
  ∀ l, (srt l).Perm l ∧ (srt l).Pairwise (fun a b => b.score ≤ a.score)

/-- Body of the per-class loop of `nmsBoxes`, the call `std::sort` being the parameter
`srt`. -/
def nmsClassWith (srt : List LayoutBox → List LayoutBox) (thr : ℚ)
    (classBoxes : List LayoutBox) : List LayoutBox :=
  let sorted := srt classBoxes
  nmsLoop thr sorted (List.replicate sorted.length false)

/-- Source function `LayoutNet::nmsBoxes`, the call `std::sort` being the parameter `srt`;
`nmsBoxes` is the instance in which the order among equal scores is the stable one. -/
def nmsBoxesWith (srt : List LayoutBox → List LayoutBox) (boxes : List LayoutBox)
    (iouThreshold : ℚ) : List LayoutBox :=
  if boxes.isEmpty then boxes
  else (classGroups boxes).foldl
    (fun result pair => result ++ nmsClassWith srt iouThreshold pair.2) []

/-- Source function `LayoutNetImproved::nmsBoxesImproved`, the call `std::sort` being the
parameter `srt`. -/
def nmsBoxesImprovedWith (srt : List LayoutBox → List LayoutBox) (boxes : List LayoutBox)
    (iouThreshold : ℚ) : List LayoutBox :=
  if boxes.isEmpty then boxes
  else
    let sorted := srt boxes
    let suppressed := List.replicate sorted.length false
    let classBoxes := classIndices sorted
    (classBoxes.foldl
      (fun st classPair => improvedClassLoop iouThreshold sorted classPair.2 st)
      ([], suppressed)).1

/-- A sort by descending score whose order among equal scores depends on the length of
the vector, as that of an introsort does: a vector of at most two elements keeps equal
scores in the given order, a longer one reverses them. -/
def lengthDependentSort (l : List LayoutBox) : List LayoutBox :=
  if l.length ≤ 2 then sortByScore l else sortByScore l.reverse

/-- Two overlapping titles with the same score, then a figure. -/
def tiedBoxes : List LayoutBox :=
  [boxA, mkBox 0 0 2 3 (1 / 2) 0 "title", mkBox 50 50 60 60 (1 / 2) 3 "figure"]

/-- Detections of two categories, one of them given twice, in which different regions of
one category have different scores. -/
def rankedBoxes : List LayoutBox :=
  [mkBox 0 0 4 4 (1 / 2) 3 "figure", boxA, boxB, mkBox 0 0 4 5 (2 / 5) 3 "figure",
   boxC, mkBox 20 20 30 30 (3 / 4) 3 "figure", boxA]

/-! ## Properties of `calculateIoU` -/

theorem Rect.inter_comm (a b : Rect) : a.inter b = b.inter a := by
  simp only [Rect.inter, max_comm a.x b.x, max_comm a.y b.y,
    min_comm (a.x + a.width) (b.x + b.width), min_comm (a.y + a.height) (b.y + b.height)]

theorem Rect.inter_area_of_empty (a b : Rect) (h : a.empty = true) : (a.inter b).area = 0 := by
  simp only [Rect.empty, Bool.or_eq_true, decide_eq_true_eq] at h
  unfold Rect.inter
  simp only
  split_ifs with hc
  · simp [Rect.area]
  · exfalso
    apply hc
    rcases h with h | h
    · left
      have := min_le_left (a.x + a.width) (b.x + b.width)
      have := le_max_left a.x b.x
      omega
    · right
      have := min_le_left (a.y + a.height) (b.y + b.height)
      have := le_max_left a.y b.y
      omega

theorem Rect.bounding_comm (a b : Rect) (ha : a.empty = false) (hb : b.empty = false) :
    a.bounding b = b.bounding a := by
  simp only [Rect.bounding, ha, hb, Bool.false_eq_true, if_false, min_comm a.x b.x,
    min_comm a.y b.y, max_comm (a.x + a.width) (b.x + b.width),
    max_comm (a.y + a.height) (b.y + b.height)]

/-- The overlap score does not depend on the order of its two arguments. -/
theorem calculateIoU_comm (a b : LayoutBox) : calculateIoU a b = calculateIoU b a := by
  unfold calculateIoU
  simp only
  rw [Rect.inter_comm (rectOf a) (rectOf b)]
  cases ha : (rectOf a).empty <;> cases hb : (rectOf b).empty
  · rw [Rect.bounding_comm _ _ ha hb]
  · simp [Rect.bounding, ha, hb]
  · simp [Rect.bounding, ha, hb]
  · have h0 : ((rectOf b).inter (rectOf a)).area = 0 := Rect.inter_area_of_empty _ _ hb
    simp [h0]

/-! ## Properties of the suppression loop -/

theorem alive_sublist (l : List LayoutBox) (flags : List Bool) : (alive l flags).Sublist l := by
  induction l generalizing flags with
  | nil => simp [alive]
  | cons c cs ih =>
    unfold alive
    split_ifs
    · exact (ih _).cons _
    · exact (ih _).cons₂ _

theorem alive_replicate (l : List LayoutBox) (n : Nat) : alive l (List.replicate n false) = l := by
  induction l generalizing n with
  | nil => simp [alive]
  | cons c cs ih =>
    cases n with
    | zero =>
      have h := ih 0
      simp only [List.replicate_zero] at h
      simp [alive, h]
    | succ m => simp [alive, List.replicate_succ, ih m]

theorem alive_markSuppressed (thr : ℚ) (b : LayoutBox) (cs : List LayoutBox) (flags : List Bool) :
    alive cs (markSuppressed thr b cs flags)
      = (alive cs flags).filter (fun c => !decide (thr < calculateIoU b c)) := by
  induction cs generalizing flags with
  | nil => simp [alive, markSuppressed]
  | cons c cs ih =>
    rcases flags with _ | ⟨f, fs⟩
    · by_cases hc : thr < calculateIoU b c <;> simp [alive, markSuppressed, hc, ih]
    · cases f <;> by_cases hc : thr < calculateIoU b c <;>
        simp [alive, markSuppressed, hc, ih]

theorem nmsLoop_sublist (thr : ℚ) (l : List LayoutBox) (flags : List Bool) :
    (nmsLoop thr l flags).Sublist (alive l flags) := by
  induction l generalizing flags with
  | nil => simp [nmsLoop, alive]
  | cons b rest ih =>
    unfold nmsLoop alive
    split_ifs
    · exact ih _
    · refine List.Sublist.cons₂ _ ((ih _).trans ?_)
      rw [alive_markSuppressed]
      exact List.filter_sublist _

theorem nmsLoop_pairwise (thr : ℚ) (l : List LayoutBox) (flags : List Bool) :
    (nmsLoop thr l flags).Pairwise (fun a b => ¬ thr < calculateIoU a b) := by
  induction l generalizing flags with
  | nil => simp [nmsLoop]
  | cons b rest ih =>
    unfold nmsLoop
    split_ifs
    · exact ih _
    · refine List.pairwise_cons.2 ⟨?_, ih _⟩
      intro c hc
      have hc2 := (nmsLoop_sublist thr rest _).subset hc
      rw [alive_markSuppressed] at hc2
      simpa using (List.mem_filter.1 hc2).2

theorem nmsLoop_head (thr : ℚ) (l : List LayoutBox) (flags : List Bool) :
    (nmsLoop thr l flags).head? = (alive l flags).head? := by
  induction l generalizing flags with
  | nil => simp [nmsLoop, alive]
  | cons b rest ih =>
    unfold nmsLoop alive
    split_ifs
    · exact ih _
    · simp

theorem nmsLoop_witness (thr : ℚ) (l : List LayoutBox) (flags : List Bool)
    (hs : l.Pairwise (fun a b => b.score ≤ a.score)) (x : LayoutBox) :
    List.count x (alive l flags) ≤ List.count x (nmsLoop thr l flags) ∨
      ∃ w ∈ nmsLoop thr l flags, thr < calculateIoU w x ∧ x.score ≤ w.score := by
  induction l generalizing flags with
  | nil => simp [nmsLoop, alive]
  | cons b rest ih =>
    have hs' := (List.pairwise_cons.1 hs)
    unfold nmsLoop alive
    split_ifs with hf
    · exact ih _ hs'.2
    · by_cases hx : x ∈ b :: rest
      · by_cases hov : thr < calculateIoU b x
        · right
          refine ⟨b, List.mem_cons_self _ _, hov, ?_⟩
          rcases List.mem_cons.1 hx with h | h
          · rw [h]
          · exact hs'.1 x h
        · rcases ih (markSuppressed thr b rest flags.tail) hs'.2 with h | ⟨w, hw, h1, h2⟩
          · left
            rw [alive_markSuppressed, List.count_filter (by simpa using hov)] at h
            simp only [List.count_cons]
            omega
          · exact Or.inr ⟨w, List.mem_cons_of_mem _ hw, h1, h2⟩
      · left
        have h0 : List.count x (b :: alive rest flags.tail) = 0 :=
          List.count_eq_zero.2 (fun h => hx (((alive_sublist rest _).cons₂ b).subset h))
        omega

/-! ## Properties of one class (`nmsClass`) -/

theorem sortByScore_perm (l : List LayoutBox) : (sortByScore l).Perm l :=
  List.perm_insertionSort _ l

theorem sortByScore_sorted (l : List LayoutBox) :
    (sortByScore l).Pairwise (fun a b => b.score ≤ a.score) := by
  haveI : IsTotal LayoutBox (fun a b => b.score ≤ a.score) := ⟨fun a b => le_total _ _⟩
  haveI : IsTrans LayoutBox (fun a b => b.score ≤ a.score) := ⟨fun _ _ _ h1 h2 => le_trans h2 h1⟩
  exact List.sorted_insertionSort (fun a b : LayoutBox => b.score ≤ a.score) l

theorem nmsClass_sublist (thr : ℚ) (v : List LayoutBox) :
    (nmsClass thr v).Sublist (sortByScore v) := by
  have h := nmsLoop_sublist thr (sortByScore v) (List.replicate (sortByScore v).length false)
  rw [alive_replicate] at h
  exact h

theorem nmsClass_count_le (thr : ℚ) (v : List LayoutBox) (x : LayoutBox) :
    List.count x (nmsClass thr v) ≤ List.count x v := by
  rw [← (sortByScore_perm v).count_eq x]
  exact (nmsClass_sublist thr v).count_le x

theorem nmsClass_subset (thr : ℚ) (v : List LayoutBox) {x : LayoutBox}
    (h : x ∈ nmsClass thr v) : x ∈ v :=
  (sortByScore_perm v).mem_iff.1 ((nmsClass_sublist thr v).subset h)

theorem nmsClass_nil (thr : ℚ) : nmsClass thr [] = [] := by
  simp [nmsClass, sortByScore, nmsLoop]

theorem nmsClass_pairwise (thr : ℚ) (v : List LayoutBox) :
    (nmsClass thr v).Pairwise (fun a b => ¬ thr < calculateIoU a b) :=
  nmsLoop_pairwise thr _ _

theorem nmsClass_witness (thr : ℚ) (v : List LayoutBox) (x : LayoutBox) :
    List.count x v ≤ List.count x (nmsClass thr v) ∨
      ∃ w ∈ nmsClass thr v, thr < calculateIoU w x ∧ x.score ≤ w.score := by
  have h := nmsLoop_witness thr (sortByScore v) (List.replicate (sortByScore v).length false)
    (sortByScore_sorted v) x
  rw [alive_replicate, (sortByScore_perm v).count_eq x] at h
  exact h

theorem nmsClass_head (thr : ℚ) (v : List LayoutBox) (hv : v ≠ []) :
    ∃ w ∈ nmsClass thr v, ∀ b ∈ v, b.score ≤ w.score := by
  have hsorted := sortByScore_sorted v
  have hperm := sortByScore_perm v
  have hhead := nmsLoop_head thr (sortByScore v) (List.replicate (sortByScore v).length false)
  rw [alive_replicate] at hhead
  cases hsv : sortByScore v with
  | nil =>
    rw [hsv] at hperm
    exact absurd (List.Perm.eq_nil hperm.symm) hv
  | cons h t =>
    rw [hsv] at hhead hsorted
    have hmem : h ∈ nmsClass thr v := by
      apply List.mem_of_mem_head?
      show h ∈ (nmsLoop thr (sortByScore v) (List.replicate (sortByScore v).length false)).head?
      rw [hsv, hhead]
      simp
    refine ⟨h, hmem, ?_⟩
    intro b hb
    have hb2 : b ∈ h :: t := by
      rw [← hsv]
      exact hperm.mem_iff.2 hb
    rcases List.mem_cons.1 hb2 with hb3 | hb3
    · rw [hb3]
    · exact (List.pairwise_cons.1 hsorted).1 b hb3

/-! ## Properties of the grouping by category (`classGroups`) -/

theorem groupPush_keys (m : List (Int × List LayoutBox)) (k : Int) (b : LayoutBox) (k' : Int) :
    k' ∈ (groupPush m k b).map Prod.fst ↔ k' = k ∨ k' ∈ m.map Prod.fst := by
  induction m with
  | nil => simp [groupPush]
  | cons p rest ih =>
    obtain ⟨kp, v⟩ := p
    unfold groupPush
    split_ifs with h1 h2
    · simp
    · subst h2
      simp
    · simp only [List.map_cons, List.mem_cons, ih]
      tauto

theorem groupPush_sorted (m : List (Int × List LayoutBox)) (k : Int) (b : LayoutBox)
    (hs : (m.map Prod.fst).Pairwise (fun a c => a < c)) :
    ((groupPush m k b).map Prod.fst).Pairwise (fun a c => a < c) := by
  induction m with
  | nil => simp [groupPush]
  | cons p rest ih =>
    obtain ⟨kp, v⟩ := p
    simp only [List.map_cons, List.pairwise_cons] at hs
    unfold groupPush
    split_ifs with h1 h2
    · simp only [List.map_cons, List.pairwise_cons, List.mem_cons]
      refine ⟨?_, hs.1, hs.2⟩
      rintro a (ha | ha)
      · rw [ha]; exact h1
      · exact lt_trans h1 (hs.1 a ha)
    · simp only [List.map_cons, List.pairwise_cons]
      exact ⟨hs.1, hs.2⟩
    · simp only [List.map_cons, List.pairwise_cons]
      refine ⟨?_, ih hs.2⟩
      intro a ha
      rcases (groupPush_keys rest k b a).1 ha with ha | ha
      · rw [ha]; omega
      · exact hs.1 a ha

theorem groupPush_values (m : List (Int × List LayoutBox)) (k : Int) (b : LayoutBox)
    (hs : (m.map Prod.fst).Pairwise (fun a c => a < c)) :
    ∀ p ∈ groupPush m k b,
      (p ∈ m ∧ p.1 ≠ k) ∨ (p.1 = k ∧ ∃ v, (k, v) ∈ m ∧ p.2 = v ++ [b]) ∨
        (p = (k, [b]) ∧ k ∉ m.map Prod.fst) := by
  induction m with
  | nil =>
    intro p hp
    simp only [groupPush, List.mem_singleton] at hp
    simp [hp]
  | cons q rest ih =>
    obtain ⟨kq, v⟩ := q
    simp only [List.map_cons, List.pairwise_cons] at hs
    intro p hp
    unfold groupPush at hp
    split_ifs at hp with h1 h2
    · rcases List.mem_cons.1 hp with hp | hp
      · right; right
        refine ⟨hp, ?_⟩
        simp only [List.map_cons, List.mem_cons, not_or]
        refine ⟨by omega, fun hk => ?_⟩
        have := hs.1 k hk
        omega
      · left
        refine ⟨hp, ?_⟩
        rcases List.mem_cons.1 hp with hp | hp
        · rw [hp]; simp only; omega
        · have := hs.1 p.1 (List.mem_map_of_mem Prod.fst hp)
          omega
    · subst h2
      rcases List.mem_cons.1 hp with hp | hp
      · right; left
        rw [hp]
        exact ⟨rfl, v, List.mem_cons_self _ _, rfl⟩
      · left
        refine ⟨List.mem_cons_of_mem _ hp, ?_⟩
        have := hs.1 p.1 (List.mem_map_of_mem Prod.fst hp)
        omega
    · rcases List.mem_cons.1 hp with hp | hp
      · left
        rw [hp]
        exact ⟨List.mem_cons_self _ _, fun h => h2 h.symm⟩
      · rcases ih hs.2 p hp with ⟨h3, h4⟩ | ⟨h3, w, h4, h5⟩ | ⟨h3, h4⟩
        · exact Or.inl ⟨List.mem_cons_of_mem _ h3, h4⟩
        · exact Or.inr (Or.inl ⟨h3, w, List.mem_cons_of_mem _ h4, h5⟩)
        · right; right
          refine ⟨h3, ?_⟩
          simp only [List.map_cons, List.mem_cons, not_or]
          exact ⟨h2, h4⟩

theorem classGroups_snoc (L : List LayoutBox) (b : LayoutBox) :
    classGroups (L ++ [b]) = groupPush (classGroups L) b.type b := by
  simp [classGroups, List.foldl_append]

/-- The grouping map has strictly increasing keys, stores under each key the boxes of
that category in input order, and has a key for every category of the input. -/
theorem classGroups_inv (L : List LayoutBox) :
    ((classGroups L).map Prod.fst).Pairwise (fun a c => a < c) ∧
    (∀ p ∈ classGroups L, p.2 = L.filter (fun x => decide (x.type = p.1))) ∧
    (∀ x ∈ L, x.type ∈ (classGroups L).map Prod.fst) := by
  induction L using List.reverseRecOn with
  | nil => simp [classGroups]
  | append_singleton L b ih =>
    obtain ⟨hs, hv, hc⟩ := ih
    rw [classGroups_snoc]
    refine ⟨groupPush_sorted _ _ _ hs, ?_, ?_⟩
    · intro p hp
      rcases groupPush_values _ _ b hs p hp with ⟨h1, h2⟩ | ⟨h1, w, h2, h3⟩ | ⟨h1, h2⟩
      · rw [hv p h1, List.filter_append]
        have : decide (b.type = p.1) = false := by simpa using fun h => h2 h.symm
        simp [this]
      · have hw := hv _ h2
        simp only at hw
        rw [h3, hw, h1, List.filter_append]
        simp
      · have hnil : L.filter (fun x => decide (x.type = b.type)) = [] := by
          rw [List.filter_eq_nil_iff]
          intro a ha hda
          have : a.type = b.type := by simpa using hda
          exact h2 (this ▸ hc a ha)
        rw [h1, List.filter_append]
        simp [hnil]
    · intro x hx
      rw [groupPush_keys]
      rcases List.mem_append.1 hx with hx | hx
      · exact Or.inr (hc x hx)
      · left
        rw [List.mem_singleton.1 hx]

/-! ## Structure of the result of `nmsBoxes` -/

theorem foldl_append_flatMap {α β : Type} (f : α → List β) (m : List α) (acc : List β) :
    m.foldl (fun r p => r ++ f p) acc = acc ++ m.flatMap f := by
  induction m generalizing acc with
  | nil => simp
  | cons p rest ih => simp [ih, List.append_assoc]

theorem flatMap_congr_mem {α β : Type} (f g : α → List β) (m : List α)
    (h : ∀ p ∈ m, f p = g p) : m.flatMap f = m.flatMap g := by
  induction m with
  | nil => simp
  | cons p rest ih =>
    simp only [List.flatMap_cons]
    rw [h p (List.mem_cons_self _ _), ih (fun q hq => h q (List.mem_cons_of_mem _ hq))]

/-- The result is the concatenation, in increasing key order, of the per-class results. -/
theorem nmsBoxes_eq_flatMap (L : List LayoutBox) (thr : ℚ) :
    nmsBoxes L thr = (classGroups L).flatMap (fun p => nmsClass thr p.2) := by
  unfold nmsBoxes
  split_ifs with h
  · have hL : L = [] := by simpa using h
    subst hL
    simp [classGroups]
  · rw [foldl_append_flatMap]
    simp

theorem flatMap_select_none (m : List (Int × List LayoutBox))
    (f : List LayoutBox → List LayoutBox) (k : Int) (hk : k ∉ m.map Prod.fst) :
    m.flatMap (fun p => if p.1 = k then f p.2 else []) = [] := by
  induction m with
  | nil => simp
  | cons q rest ih =>
    simp only [List.map_cons, List.mem_cons, not_or] at hk
    simp only [List.flatMap_cons]
    rw [ih hk.2, if_neg (fun h => hk.1 h.symm)]
    simp

theorem flatMap_select_some (m : List (Int × List LayoutBox))
    (f : List LayoutBox → List LayoutBox) (k : Int) (v : List LayoutBox)
    (hs : (m.map Prod.fst).Pairwise (fun a c => a < c)) (hkv : (k, v) ∈ m) :
    m.flatMap (fun p => if p.1 = k then f p.2 else []) = f v := by
  induction m with
  | nil => simp at hkv
  | cons q rest ih =>
    simp only [List.map_cons, List.pairwise_cons] at hs
    simp only [List.flatMap_cons]
    rcases List.mem_cons.1 hkv with h | h
    · rw [← h]
      have hnot : k ∉ rest.map Prod.fst := by
        intro hin
        have := hs.1 k hin
        rw [← h] at this
        simp only at this
        omega
      rw [flatMap_select_none rest f k hnot]
      simp
    · have hlt := hs.1 k (List.mem_map_of_mem Prod.fst h)
      rw [ih hs.2 h, if_neg (by omega)]
      simp

/-- Restricted to one category, the result is the per-class suppression of the input
boxes of that category. -/
theorem nmsBoxes_filter_type (L : List LayoutBox) (thr : ℚ) (k : Int) :
    (nmsBoxes L thr).filter (fun x => decide (x.type = k))
      = nmsClass thr (L.filter (fun x => decide (x.type = k))) := by
  obtain ⟨hs, hv, hc⟩ := classGroups_inv L
  rw [nmsBoxes_eq_flatMap, List.filter_flatMap]
  rw [flatMap_congr_mem _ (fun p => if p.1 = k then nmsClass thr p.2 else []) _ ?_]
  · by_cases hk : k ∈ (classGroups L).map Prod.fst
    · obtain ⟨p, hp, hpk⟩ := List.mem_map.1 hk
      obtain ⟨kp, v⟩ := p
      simp only at hpk
      subst hpk
      rw [flatMap_select_some _ (nmsClass thr) kp v hs hp]
      have := hv _ hp
      simp only at this
      rw [this]
    · rw [flatMap_select_none _ (nmsClass thr) k hk]
      have hnil : L.filter (fun x => decide (x.type = k)) = [] := by
        rw [List.filter_eq_nil_iff]
        intro a ha hda
        have : a.type = k := by simpa using hda
        exact hk (this ▸ hc a ha)
      rw [hnil, nmsClass_nil]
  · intro p hp
    have htype : ∀ x ∈ nmsClass thr p.2, x.type = p.1 := by
      intro x hx
      have hx2 := nmsClass_subset thr p.2 hx
      rw [hv p hp] at hx2
      simpa using (List.mem_filter.1 hx2).2
    show _ = if p.1 = k then nmsClass thr p.2 else []
    split_ifs with hpk
    · rw [List.filter_eq_self]
      intro x hx
      simpa [hpk] using htype x hx
    · rw [List.filter_eq_nil_iff]
      intro x hx hd
      have h1 : x.type = k := by simpa using hd
      exact hpk ((htype x hx).symm.trans h1)

theorem nmsBoxes_count (L : List LayoutBox) (thr : ℚ) (x : LayoutBox) :
    List.count x (nmsBoxes L thr)
      = List.count x (nmsClass thr (L.filter (fun y => decide (y.type = x.type)))) := by
  rw [← nmsBoxes_filter_type, List.count_filter (by simp)]

theorem nmsBoxes_count_le (L : List LayoutBox) (thr : ℚ) (x : LayoutBox) :
    List.count x (nmsBoxes L thr) ≤ List.count x L := by
  rw [nmsBoxes_count]
  refine le_trans (nmsClass_count_le thr _ x) ?_
  rw [List.count_filter (by simp)]

theorem nmsBoxes_subset (L : List LayoutBox) (thr : ℚ) {x : LayoutBox}
    (h : x ∈ nmsBoxes L thr) : x ∈ L := by
  have h1 := List.count_pos_iff.2 h
  have h2 := nmsBoxes_count_le L thr x
  exact List.count_pos_iff.1 (by omega)

theorem mem_nmsBoxes_of_mem_nmsClass (L : List LayoutBox) (thr : ℚ) (k : Int) {w : LayoutBox}
    (h : w ∈ nmsClass thr (L.filter (fun y => decide (y.type = k)))) :
    w ∈ nmsBoxes L thr ∧ w.type = k := by
  rw [← nmsBoxes_filter_type] at h
  have := List.mem_filter.1 h
  exact ⟨this.1, by simpa using this.2⟩

theorem nmsBoxes_pairwise (L : List LayoutBox) (thr : ℚ) :
    (nmsBoxes L thr).Pairwise (fun a b => a.type = b.type → ¬ thr < calculateIoU a b) := by
  obtain ⟨hs, hv, _⟩ := classGroups_inv L
  rw [nmsBoxes_eq_flatMap, List.pairwise_flatMap]
  constructor
  · intro p _
    refine List.Pairwise.imp ?_ (nmsClass_pairwise thr p.2)
    intro a b h _
    exact h
  · have hkeys : (classGroups L).Pairwise (fun p q => p.1 < q.1) := List.pairwise_map.1 hs
    refine hkeys.imp_of_mem ?_
    intro p q hp hq hlt x hx y hy hxy
    have hx2 := nmsClass_subset thr p.2 hx
    have hy2 := nmsClass_subset thr q.2 hy
    rw [hv p hp] at hx2
    rw [hv q hq] at hy2
    have h1 : x.type = p.1 := by simpa using (List.mem_filter.1 hx2).2
    have h2 : y.type = q.1 := by simpa using (List.mem_filter.1 hy2).2
    omega

/-! ## Claims on `calculateIoU` and `nmsBoxes` -/

/-- C1: on two non-degenerate 2x2 squares shifted by one pixel, `calculateIoU` returns
1/9, the intersection area over the area of the bounding rectangle of the two boxes,
while intersection area over `area1 + area2 - intersection area` is 1/7. -/
theorem calculateIoU_divides_by_bounding_area :
    squareAt0.nonDegenerate ∧ squareAt1.nonDegenerate ∧
    calculateIoU squareAt0 squareAt1 = 1 / 9 ∧ iouSpec squareAt0 squareAt1 = 1 / 7 := by
  with_unfolding_all decide

/-- C2: two regions at distinct positions of the result of `nmsBoxes` that have the same
category never have an overlap score (as `calculateIoU` computes it) above the threshold. -/
theorem nmsBoxes_survivors_overlap_le (L : List LayoutBox) (thr : ℚ) (i j : Nat)
    (a b : LayoutBox) (ha : (nmsBoxes L thr)[i]? = some a) (hb : (nmsBoxes L thr)[j]? = some b)
    (hij : i ≠ j) (hty : a.type = b.type) : ¬ thr < calculateIoU a b := by
  have hp := List.pairwise_iff_getElem.1 (nmsBoxes_pairwise L thr)
  obtain ⟨hi, hai⟩ := List.getElem?_eq_some_iff.1 ha
  obtain ⟨hj, hbj⟩ := List.getElem?_eq_some_iff.1 hb
  rcases Nat.lt_or_gt_of_ne hij with h | h
  · have := hp i j hi hj h
    rw [hai, hbj] at this
    exact this hty
  · have := hp j i hj hi h
    rw [hai, hbj] at this
    rw [calculateIoU_comm]
    exact this hty.symm

/-- Instance of C2 on `sampleBoxes`: the survivors `boxB` and `boxA` do not overlap. -/
theorem nmsBoxes_survivors_overlap_le_witness :
    (nmsBoxes sampleBoxes (2 / 5))[0]? = some boxB ∧
    (nmsBoxes sampleBoxes (2 / 5))[1]? = some boxA ∧
    ¬ (2 / 5 : ℚ) < calculateIoU boxB boxA :=
  ⟨by with_unfolding_all decide, by with_unfolding_all decide,
    nmsBoxes_survivors_overlap_le sampleBoxes (2 / 5) 0 1 boxB boxA
      (by with_unfolding_all decide) (by with_unfolding_all decide) (by decide)
      (by with_unfolding_all decide)⟩

/-- C3: a region that occurs in the input more often than in the result of `nmsBoxes`
(in particular every input region missing from the result) has a witness: a returned
region of the same category whose overlap score with it exceeds the threshold and whose
score is at least its score. -/
theorem nmsBoxes_suppressed_has_witness (L : List LayoutBox) (thr : ℚ) (x : LayoutBox)
    (hx : List.count x (nmsBoxes L thr) < List.count x L) :
    ∃ w ∈ nmsBoxes L thr, w.type = x.type ∧ thr < calculateIoU w x ∧ x.score ≤ w.score := by
  rcases nmsClass_witness thr (L.filter (fun y => decide (y.type = x.type))) x with
    h | ⟨w, hw, h1, h2⟩
  · rw [← nmsBoxes_count, List.count_filter (by simp)] at h
    omega
  · obtain ⟨hw1, hw2⟩ := mem_nmsBoxes_of_mem_nmsClass L thr x.type hw
    exact ⟨w, hw1, hw2, h1, h2⟩

/-- Instance of C3 on `sampleBoxes`: the suppressed `boxC` has a witness. -/
theorem nmsBoxes_suppressed_has_witness_witness :
    List.count boxC (nmsBoxes sampleBoxes (2 / 5)) < List.count boxC sampleBoxes ∧
    ∃ w ∈ nmsBoxes sampleBoxes (2 / 5),
      w.type = boxC.type ∧ (2 / 5 : ℚ) < calculateIoU w boxC ∧ boxC.score ≤ w.score :=
  ⟨by with_unfolding_all decide,
    nmsBoxes_suppressed_has_witness sampleBoxes (2 / 5) boxC (by with_unfolding_all decide)⟩

/-- C4: the result of `nmsBoxes` is a sub-multiset of the input: it is a permutation of
a sublist of the input, so every returned region is an input region, unchanged, and no
region is returned more often than it occurs in the input. -/
theorem nmsBoxes_submultiset (L : List LayoutBox) (thr : ℚ) :
    (nmsBoxes L thr).Subperm L ∧
    (∀ x, x ∈ nmsBoxes L thr → x ∈ L) ∧
    (∀ x, List.count x (nmsBoxes L thr) ≤ List.count x L) :=
  ⟨List.subperm_ext_iff.2 (fun x _ => nmsBoxes_count_le L thr x),
    fun _ h => nmsBoxes_subset L thr h, nmsBoxes_count_le L thr⟩

/-- C5: suppression never crosses category boundaries: the regions of category `c` in
`nmsBoxes L` are exactly `nmsBoxes` of the category-`c` regions of `L`. -/
theorem nmsBoxes_per_category (L : List LayoutBox) (thr : ℚ) (c : Int) :
    (nmsBoxes L thr).filter (fun b => decide (b.type = c))
      = nmsBoxes (L.filter (fun b => decide (b.type = c))) thr := by
  rw [nmsBoxes_filter_type]
  have h := nmsBoxes_filter_type (L.filter (fun b => decide (b.type = c))) thr c
  rw [List.filter_filter] at h
  simp only [Bool.and_self] at h
  rw [← h]
  refine List.filter_eq_self.2 ?_
  intro x hx
  exact (List.mem_filter.1 (nmsBoxes_subset _ thr hx)).2

/-- C6: for every category present in the input, `nmsBoxes` returns an input region of
that category whose score is the maximum over the input regions of that category. -/
theorem nmsBoxes_keeps_class_maximum (L : List LayoutBox) (thr : ℚ) (c : LayoutBox)
    (hc : c ∈ L) :
    ∃ w ∈ nmsBoxes L thr, w ∈ L ∧ w.type = c.type ∧
      ∀ b ∈ L, b.type = c.type → b.score ≤ w.score := by
  have hne : L.filter (fun y => decide (y.type = c.type)) ≠ [] := by
    intro h
    have : c ∈ L.filter (fun y => decide (y.type = c.type)) :=
      List.mem_filter.2 ⟨hc, by simp⟩
    rw [h] at this
    simp at this
  obtain ⟨w, hw, hmax⟩ := nmsClass_head thr _ hne
  obtain ⟨hw1, hw2⟩ := mem_nmsBoxes_of_mem_nmsClass L thr c.type hw
  refine ⟨w, hw1, nmsBoxes_subset L thr hw1, hw2, ?_⟩
  intro b hb hbt
  exact hmax b (List.mem_filter.2 ⟨hb, by simpa using hbt⟩)

/-- Instance of C6 on `sampleBoxes`, for the category of `boxC`. -/
theorem nmsBoxes_keeps_class_maximum_witness :
    boxC ∈ sampleBoxes ∧
    ∃ w ∈ nmsBoxes sampleBoxes (2 / 5), w ∈ sampleBoxes ∧ w.type = boxC.type ∧
      ∀ b ∈ sampleBoxes, b.type = boxC.type → b.score ≤ w.score :=
  ⟨by with_unfolding_all decide,
    nmsBoxes_keeps_class_maximum sampleBoxes (2 / 5) boxC (by with_unfolding_all decide)⟩

/-! ## Properties of the decoder arithmetic -/

theorem toInt_intCast (n : Int) : toInt (n : ℚ) = n := by
  unfold toInt
  split_ifs with h
  · exact Int.floor_intCast n
  · have : (-(n : ℚ)) = ((-n : Int) : ℚ) := by push_cast; ring
    rw [this, Int.floor_intCast]
    ring

theorem toInt_neg_of_le (v : ℚ) (h : v ≤ -1) : toInt v < 0 := by
  unfold toInt
  rw [if_neg (by linarith)]
  have h1 : (1 : Int) ≤ ⌊-v⌋ := Int.le_floor.2 (by push_cast; linarith)
  omega

theorem toInt_ge_of_le (v : ℚ) (h : 10 ≤ v) : 10 ≤ toInt v := by
  unfold toInt
  rw [if_pos (by linarith)]
  exact Int.le_floor.2 (by push_cast; linarith)

theorem decoderGain_pos (cols rows : Int) (hc : 1 ≤ cols) (hr : 1 ≤ rows) :
    0 < decoderGain cols rows := by
  unfold decoderGain INPUT_WIDTH INPUT_HEIGHT
  have hcq : (0 : ℚ) < cols := by exact_mod_cast (by omega : (0 : Int) < cols)
  have hrq : (0 : ℚ) < rows := by exact_mod_cast (by omega : (0 : Int) < rows)
  exact lt_min (by positivity) (by positivity)

theorem preprocessImage_r (width height : Int) :
    (preprocessImage width height).r = decoderGain width height := rfl

theorem parseYOLOv8Output_single (data : List ℚ) (numFeatures cols rows : Int) (thr : ℚ) :
    parseYOLOv8Output data [1, 1, numFeatures] cols rows thr
      = (parseCandidate data numFeatures cols rows thr 0).toList := by
  simp only [parseYOLOv8Output, List.length_cons, List.length_nil]
  cases h : parseCandidate data numFeatures cols rows thr 0 <;>
    simp [List.range_succ, h]

theorem readAt_row (a0 a1 a2 a3 a4 a5 : ℚ) :
    readAt [a0, a1, a2, a3, a4, a5] (((0 : Nat) : Int) * 6 + 0) = a0 ∧
    readAt [a0, a1, a2, a3, a4, a5] (((0 : Nat) : Int) * 6 + 1) = a1 ∧
    readAt [a0, a1, a2, a3, a4, a5] (((0 : Nat) : Int) * 6 + 2) = a2 ∧
    readAt [a0, a1, a2, a3, a4, a5] (((0 : Nat) : Int) * 6 + 3) = a3 ∧
    readAt [a0, a1, a2, a3, a4, a5] (((0 : Nat) : Int) * 6 + 4) = a4 ∧
    readAt [a0, a1, a2, a3, a4, a5] (((0 : Nat) : Int) * 6 + 5) = a5 := by
  simp [readAt]

/-! ## Claims on `parseYOLOv8Output` -/

/-- C7 as stated fails: a candidate whose class-id column is -1/2, a value below 0,
is truncated to class 0 and decoded into a `title` region. -/
theorem parseYOLOv8Output_keeps_class_minus_half :
    readAt rowClassMinusHalf 5 < 0 ∧
    parseYOLOv8Output rowClassMinusHalf [1, 1, 6] 1024 1024 (1 / 2)
      = [mkBox 0 0 10 10 (7 / 8) 0 "title"] := by
  with_unfolding_all decide

/-- C7, amended: a candidate whose class-id column is at most -1 or at least 10, that is
whose class id after truncation toward zero lies outside `[0, 10)`, ends its loop
iteration without a region, whatever its confidence and coordinates. -/
theorem parseCandidate_rejects_class_outside_range (data : List ℚ) (numFeatures cols rows : Int)
    (thr : ℚ) (i : Nat)
    (h : readAt data (i * numFeatures + 5) ≤ -1 ∨ 10 ≤ readAt data (i * numFeatures + 5)) :
    parseCandidate data numFeatures cols rows thr i = none := by
  have hc : toInt (readAt data (i * numFeatures + 5)) < 0 ∨
      toInt (readAt data (i * numFeatures + 5)) ≥ 10 := by
    rcases h with h | h
    · exact Or.inl (toInt_neg_of_le _ h)
    · exact Or.inr (toInt_ge_of_le _ h)
  unfold parseCandidate
  simp only
  rw [if_pos (Or.inr hc)]

/-- Instance of the amended C7: a row with class-id column 10 is rejected. -/
theorem parseCandidate_rejects_class_outside_range_witness :
    (readAt [0, 0, 10, 10, 7 / 8, 10] (((0 : Nat) : Int) * 6 + 5) ≤ -1 ∨
      10 ≤ readAt [0, 0, 10, 10, 7 / 8, 10] (((0 : Nat) : Int) * 6 + 5)) ∧
    parseCandidate [0, 0, 10, 10, 7 / 8, 10] 6 1024 1024 (1 / 2) 0 = none :=
  ⟨by with_unfolding_all decide,
    parseCandidate_rejects_class_outside_range [0, 0, 10, 10, 7 / 8, 10] 6 1024 1024 (1 / 2) 0
      (by with_unfolding_all decide)⟩

/-- C8 (defect): for a 1024x1024 source the candidate `(1/4, 1/4)-(3/4, 3/4)` passes the
validity test on the clipped coordinates, and the region built from it by truncation to
integers has all four corners at `(0, 0)`: it is degenerate. -/
theorem parseYOLOv8Output_returns_degenerate_box :
    parseYOLOv8Output rowInsidePixel [1, 1, 6] 1024 1024 (1 / 2)
      = [mkBox 0 0 0 0 (7 / 8) 0 "title"] ∧
    ¬ (mkBox 0 0 0 0 (7 / 8) 0 "title").nonDegenerate := by
  with_unfolding_all decide

/-- C9 as stated fails: a rank-3 shape whose last dimension is 7 is decoded, with
stride 7, into a region. -/
theorem parseYOLOv8Output_decodes_seven_columns :
    parseYOLOv8Output rowSevenColumns [1, 1, 7] 1024 1024 (1 / 2)
      = [mkBox 0 0 10 10 (7 / 8) 0 "title"] := by
  with_unfolding_all decide

/-- C9, amended: for every output shape that is not of rank 3, `parseYOLOv8Output`
returns the empty region sequence. -/
theorem parseYOLOv8Output_rank_not_three (data : List ℚ) (outputShape : List Int)
    (cols rows : Int) (thr : ℚ) (h : outputShape.length ≠ 3) :
    parseYOLOv8Output data outputShape cols rows thr = [] := by
  unfold parseYOLOv8Output
  rw [if_pos h]

/-- Instance of the amended C9: a rank-2 shape gives no region. -/
theorem parseYOLOv8Output_rank_not_three_witness :
    ([1, 6] : List Int).length ≠ 3 ∧
    parseYOLOv8Output [0, 0, 10, 10, 7 / 8, 0] [1, 6] 1024 1024 (1 / 2) = [] :=
  ⟨by decide,
    parseYOLOv8Output_rank_not_three [0, 0, 10, 10, 7 / 8, 0] [1, 6] 1024 1024 (1 / 2)
      (by decide)⟩

theorem cRound_eq_of_near (q : ℚ) (k : Int) (h1 : (k : ℚ) - 1 / 2 < q) (h2 : q < k + 1 / 2) :
    cRound q = k := by
  unfold cRound
  split_ifs with h
  · rw [Int.floor_eq_iff]
    constructor <;> linarith
  · have : ⌊-q + 1 / 2⌋ = -k := by
      rw [Int.floor_eq_iff]
      push_cast
      constructor <;> linarith
    rw [this]
    ring

theorem cRound_dist (q : ℚ) : |(cRound q : ℚ) - q| ≤ 1 / 2 := by
  unfold cRound
  rw [abs_le]
  split_ifs with h
  · have h1 := Int.floor_le (q + 1 / 2)
    have h2 := Int.lt_floor_add_one (q + 1 / 2)
    constructor <;> linarith
  · have h1 := Int.floor_le (-q + 1 / 2)
    have h2 := Int.lt_floor_add_one (-q + 1 / 2)
    push_cast
    constructor <;> linarith

theorem cRound_le_of_le (q : ℚ) (n : Int) (h : q ≤ n) : cRound q ≤ n := by
  have h1 := (abs_le.1 (cRound_dist q)).2
  have h2 : (cRound q : ℚ) < (n : ℚ) + 1 := by linarith
  have h3 : cRound q < n + 1 := by exact_mod_cast h2
  omega

theorem cRound_half_minus (d : Int) : cRound ((d : ℚ) / 2 - 1 / 10) = d / 2 := by
  apply cRound_eq_of_near
  · rcases Int.emod_two_eq_zero_or_one d with h | h
    · have hd2 : d = 2 * (d / 2) := by omega
      have hq : (d : ℚ) = 2 * ((d / 2 : Int) : ℚ) := by exact_mod_cast hd2
      linarith
    · have hd2 : d = 2 * (d / 2) + 1 := by omega
      have hq : (d : ℚ) = 2 * ((d / 2 : Int) : ℚ) + 1 := by exact_mod_cast hd2
      linarith
  · rcases Int.emod_two_eq_zero_or_one d with h | h
    · have hd2 : d = 2 * (d / 2) := by omega
      have hq : (d : ℚ) = 2 * ((d / 2 : Int) : ℚ) := by exact_mod_cast hd2
      linarith
    · have hd2 : d = 2 * (d / 2) + 1 := by omega
      have hq : (d : ℚ) = 2 * ((d / 2 : Int) : ℚ) + 1 := by exact_mod_cast hd2
      linarith

theorem cRound_half_plus (d : Int) :
    cRound ((d : ℚ) / 2 + 1 / 10) = (d + 1) / 2 := by
  apply cRound_eq_of_near
  · rcases Int.emod_two_eq_zero_or_one d with h | h
    · have hd2 : d = 2 * ((d + 1) / 2) := by omega
      have hq : (d : ℚ) = 2 * (((d + 1) / 2 : Int) : ℚ) := by exact_mod_cast hd2
      linarith
    · have hd2 : d = 2 * ((d + 1) / 2) - 1 := by omega
      have hq : (d : ℚ) = 2 * (((d + 1) / 2 : Int) : ℚ) - 1 := by exact_mod_cast hd2
      linarith
  · rcases Int.emod_two_eq_zero_or_one d with h | h
    · have hd2 : d = 2 * ((d + 1) / 2) := by omega
      have hq : (d : ℚ) = 2 * (((d + 1) / 2 : Int) : ℚ) := by exact_mod_cast hd2
      linarith
    · have hd2 : d = 2 * ((d + 1) / 2) - 1 := by omega
      have hq : (d : ℚ) = 2 * (((d + 1) / 2 : Int) : ℚ) - 1 := by exact_mod_cast hd2
      linarith

theorem scaled_width_le (width height : Int) (hW : 1 ≤ width) :
    (width : ℚ) * decoderGain width height ≤ 1024 := by
  have hwq : (0 : ℚ) < width := by exact_mod_cast (by omega : (0 : Int) < width)
  have h1 : decoderGain width height ≤ (1024 : ℚ) / width := by
    unfold decoderGain INPUT_WIDTH
    exact le_trans (min_le_left _ _) (le_of_eq (by push_cast; ring))
  calc (width : ℚ) * decoderGain width height
      ≤ (width : ℚ) * ((1024 : ℚ) / width) := mul_le_mul_of_nonneg_left h1 hwq.le
    _ = 1024 := by field_simp

theorem scaled_height_le (width height : Int) (hH : 1 ≤ height) :
    (height : ℚ) * decoderGain width height ≤ 1024 := by
  have hhq : (0 : ℚ) < height := by exact_mod_cast (by omega : (0 : Int) < height)
  have h1 : decoderGain width height ≤ (1024 : ℚ) / height := by
    unfold decoderGain INPUT_HEIGHT
    exact le_trans (min_le_right _ _) (le_of_eq (by push_cast; ring))
  calc (height : ℚ) * decoderGain width height
      ≤ (height : ℚ) * ((1024 : ℚ) / height) := mul_le_mul_of_nonneg_left h1 hhq.le
    _ = 1024 := by field_simp

theorem preprocessImage_newW (width height : Int) :
    (preprocessImage width height).newW = cRound (width * decoderGain width height) := rfl

theorem preprocessImage_newH (width height : Int) :
    (preprocessImage width height).newH = cRound (height * decoderGain width height) := rfl

theorem preprocessImage_padW (width height : Int) :
    (preprocessImage width height).padW
      = cRound (((1024 - (preprocessImage width height).newW : Int) : ℚ) / 2 - 1 / 10) := rfl

theorem preprocessImage_padH (width height : Int) :
    (preprocessImage width height).padH
      = cRound (((1024 - (preprocessImage width height).newH : Int) : ℚ) / 2 - 1 / 10) := rfl

theorem preprocessImage_padRight (width height : Int) :
    (preprocessImage width height).padRight
      = cRound (((1024 - (preprocessImage width height).newW : Int) : ℚ) / 2 + 1 / 10) := rfl

theorem preprocessImage_padBottom (width height : Int) :
    (preprocessImage width height).padBottom
      = cRound (((1024 - (preprocessImage width height).newH : Int) : ℚ) / 2 + 1 / 10) := rfl

/-- Two roundings whose arguments are at most 1/4 apart differ by at most one. -/
theorem cRound_near (a b : ℚ) (h : |a - b| ≤ 1 / 4) : |cRound a - cRound b| ≤ 1 := by
  have ha := abs_le.1 (cRound_dist a)
  have hb := abs_le.1 (cRound_dist b)
  have hab := abs_le.1 h
  have h1 : ((cRound a - cRound b : Int) : ℚ) < 2 := by push_cast; linarith
  have h2 : (-2 : ℚ) < ((cRound a - cRound b : Int) : ℚ) := by push_cast; linarith
  have h3 : cRound a - cRound b < 2 := by exact_mod_cast h1
  have h4 : -2 < cRound a - cRound b := by exact_mod_cast h2
  rw [abs_le]
  omega

/-! ## Claims on the letterbox arithmetic -/

/-- C11 as stated fails: for a 4096x1002 source `preprocessImage` pads 386 rows on top
(from the rounded height 251) while `parseYOLOv8Output` subtracts 387 (from the unrounded
height 250.5). -/
theorem decoder_padTop_differs :
    (preprocessImage 4096 1002).newH = 251 ∧ (preprocessImage 4096 1002).padH = 386 ∧
    decoderPadH 4096 1002 = 387 := by
  with_unfolding_all decide

/-- C11, amended: for every source size with `W, H ≥ 1` the gain used by the decoder is
the gain of `preprocessImage`; the offsets the decoder recomputes differ from the left
and top paddings of `preprocessImage` by at most one, and are equal to them on an axis
on which the scaled size `W * gain` (resp. `H * gain`) is a whole number. -/
theorem decoder_transform_near_preprocess (W H : Int) (_hW : 1 ≤ W) (_hH : 1 ≤ H) :
    decoderGain W H = (preprocessImage W H).r ∧
    |decoderPadW W H - (preprocessImage W H).padW| ≤ 1 ∧
    |decoderPadH W H - (preprocessImage W H).padH| ≤ 1 ∧
    ((((preprocessImage W H).newW : Int) : ℚ) = W * decoderGain W H →
      decoderPadW W H = (preprocessImage W H).padW) ∧
    ((((preprocessImage W H).newH : Int) : ℚ) = H * decoderGain W H →
      decoderPadH W H = (preprocessImage W H).padH) := by
  have hdw := abs_le.1 (cRound_dist (W * decoderGain W H))
  have hdh := abs_le.1 (cRound_dist (H * decoderGain W H))
  refine ⟨rfl, ?_, ?_, ?_, ?_⟩
  · rw [preprocessImage_padW, preprocessImage_newW]
    unfold decoderPadW INPUT_WIDTH
    apply cRound_near
    rw [abs_le]
    push_cast
    constructor <;> linarith
  · rw [preprocessImage_padH, preprocessImage_newH]
    unfold decoderPadH INPUT_HEIGHT
    apply cRound_near
    rw [abs_le]
    push_cast
    constructor <;> linarith
  · intro h
    rw [preprocessImage_padW]
    unfold decoderPadW INPUT_WIDTH
    push_cast
    rw [h]
  · intro h
    rw [preprocessImage_padH]
    unfold decoderPadH INPUT_HEIGHT
    push_cast
    rw [h]

/-- Instance of the amended C11 for a 2000x1000 source. -/
theorem decoder_transform_near_preprocess_witness :
    decoderGain 2000 1000 = (preprocessImage 2000 1000).r ∧
    |decoderPadW 2000 1000 - (preprocessImage 2000 1000).padW| ≤ 1 ∧
    |decoderPadH 2000 1000 - (preprocessImage 2000 1000).padH| ≤ 1 ∧
    ((((preprocessImage 2000 1000).newW : Int) : ℚ) = (2000 : Int) * decoderGain 2000 1000 →
      decoderPadW 2000 1000 = (preprocessImage 2000 1000).padW) ∧
    ((((preprocessImage 2000 1000).newH : Int) : ℚ) = (1000 : Int) * decoderGain 2000 1000 →
      decoderPadH 2000 1000 = (preprocessImage 2000 1000).padH) :=
  decoder_transform_near_preprocess 2000 1000 (by decide) (by decide)

/-- C12: for every source size with `W, H ≥ 1` the four paddings of `preprocessImage`
are non-negative and `newW + padLeft + padRight = 1024`, `newH + padTop + padBottom = 1024`. -/
theorem preprocessImage_padding_fills_canvas (W H : Int) (hW : 1 ≤ W) (hH : 1 ≤ H) :
    0 ≤ (preprocessImage W H).padW ∧ 0 ≤ (preprocessImage W H).padRight ∧
    0 ≤ (preprocessImage W H).padH ∧ 0 ≤ (preprocessImage W H).padBottom ∧
    (preprocessImage W H).newW + (preprocessImage W H).padW
      + (preprocessImage W H).padRight = 1024 ∧
    (preprocessImage W H).newH + (preprocessImage W H).padH
      + (preprocessImage W H).padBottom = 1024 := by
  have hw : (preprocessImage W H).newW ≤ 1024 := by
    rw [preprocessImage_newW]
    exact cRound_le_of_le _ 1024 (by exact_mod_cast scaled_width_le W H hW)
  have hh : (preprocessImage W H).newH ≤ 1024 := by
    rw [preprocessImage_newH]
    exact cRound_le_of_le _ 1024 (by exact_mod_cast scaled_height_le W H hH)
  rw [preprocessImage_padW, preprocessImage_padH, preprocessImage_padRight,
    preprocessImage_padBottom, cRound_half_minus, cRound_half_minus, cRound_half_plus,
    cRound_half_plus]
  omega

/-- Instance of C12 for a 1002x4096 source (odd horizontal padding 773 = 386 + 387). -/
theorem preprocessImage_padding_fills_canvas_witness :
    0 ≤ (preprocessImage 1002 4096).padW ∧ 0 ≤ (preprocessImage 1002 4096).padRight ∧
    0 ≤ (preprocessImage 1002 4096).padH ∧ 0 ≤ (preprocessImage 1002 4096).padBottom ∧
    (preprocessImage 1002 4096).newW + (preprocessImage 1002 4096).padW
      + (preprocessImage 1002 4096).padRight = 1024 ∧
    (preprocessImage 1002 4096).newH + (preprocessImage 1002 4096).padH
      + (preprocessImage 1002 4096).padBottom = 1024 :=
  preprocessImage_padding_fills_canvas 1002 4096 (by decide) (by decide)

/-- C16: for a 2000x1000 source `preprocessImage` computes gain 0.512, resized size
1024x512, total padding 0 and 512, and paddings left 0, top 256, right 0, bottom 256. -/
theorem preprocessImage_2000x1000 :
    (preprocessImage 2000 1000).r = 512 / 1000 ∧
    (preprocessImage 2000 1000).newW = 1024 ∧ (preprocessImage 2000 1000).newH = 512 ∧
    (preprocessImage 2000 1000).dw = 0 ∧ (preprocessImage 2000 1000).dh = 512 ∧
    (preprocessImage 2000 1000).padW = 0 ∧ (preprocessImage 2000 1000).padH = 256 ∧
    (preprocessImage 2000 1000).padRight = 0 ∧ (preprocessImage 2000 1000).padBottom = 256 := by
  have hH : (preprocessImage 2000 1000).newH = 512 := by with_unfolding_all decide
  have hdh : (preprocessImage 2000 1000).dh
      = ((INPUT_HEIGHT - (preprocessImage 2000 1000).newH : Int) : ℚ) := rfl
  refine ⟨by with_unfolding_all decide, by with_unfolding_all decide, hH,
    by with_unfolding_all decide, ?_, by with_unfolding_all decide,
    by with_unfolding_all decide, by with_unfolding_all decide, by with_unfolding_all decide⟩
  rw [hdh, hH]
  norm_num [INPUT_HEIGHT]

/-! ## The decoder against the acceptance rule of the specification -/

theorem parseCandidate_eq (data : List ℚ) (numFeatures cols rows : Int) (thr : ℚ) (i : Nat) :
    parseCandidate data numFeatures cols rows thr i
      = if candAccepted data numFeatures cols rows thr i
        then some (candRegion data numFeatures cols rows i) else none := by
  unfold parseCandidate candAccepted candRegion candX1 candY1 candX2 candY2 candConfidence
    candClassId invertCoord mkBox
  simp only
  have hlen : (DOCLAYOUT_CLASSES.length : Int) = 10 := rfl
  rw [hlen]
  by_cases h1 : readAt data (i * numFeatures + 4) < thr
  · rw [if_pos (Or.inl h1), if_neg (fun h => absurd h.1 (not_le.2 h1))]
  · by_cases h2 : toInt (readAt data (i * numFeatures + 5)) < 0
    · rw [if_pos (Or.inr (Or.inl h2)), if_neg (fun h => absurd h.2.1 (not_le.2 h2))]
    · by_cases h3 : toInt (readAt data (i * numFeatures + 5)) ≥ 10
      · rw [if_pos (Or.inr (Or.inr h3)), if_neg (fun h => absurd h.2.2.1 (not_lt.2 h3))]
      · rw [if_neg (by tauto), if_neg (by tauto)]
        by_cases h4 : clip ((readAt data (i * numFeatures + 2) - (decoderPadW cols rows : ℚ))
              / decoderGain cols rows) cols
            ≤ clip ((readAt data (i * numFeatures + 0) - (decoderPadW cols rows : ℚ))
              / decoderGain cols rows) cols
        · rw [if_pos (Or.inl h4), if_neg (fun h => absurd h.2.2.2.1 (not_lt.2 h4))]
        · by_cases h5 : clip ((readAt data (i * numFeatures + 3) - (decoderPadH cols rows : ℚ))
                / decoderGain cols rows) rows
              ≤ clip ((readAt data (i * numFeatures + 1) - (decoderPadH cols rows : ℚ))
                / decoderGain cols rows) rows
          · rw [if_pos (Or.inr h5), if_neg (fun h => absurd h.2.2.2.2 (not_lt.2 h5))]
          · rw [if_neg (by tauto), if_pos ⟨not_lt.1 h1, not_lt.1 h2, not_le.1 h3,
              not_le.1 h4, not_le.1 h5⟩]

theorem filterMap_ite_eq {α β : Type} (p : α → Prop) [DecidablePred p] (f : α → β)
    (l : List α) :
    l.filterMap (fun a => if p a then some (f a) else none)
      = (l.filter (fun a => decide (p a))).map f := by
  induction l with
  | nil => simp
  | cons a rest ih =>
    by_cases h : p a
    · simp [List.filterMap_cons, h, ih]
    · simp [List.filterMap_cons, h, ih]

theorem parseYOLOv8Output_eq (data : List ℚ) (outputShape : List Int) (cols rows : Int)
    (thr : ℚ) (h : outputShape.length = 3) :
    parseYOLOv8Output data outputShape cols rows thr
      = ((List.range (outputShape.getD 1 0).toNat).filter
          (fun i => decide (candAccepted data (outputShape.getD 2 0) cols rows thr i))).map
          (candRegion data (outputShape.getD 2 0) cols rows) := by
  unfold parseYOLOv8Output
  rw [if_neg (by simp [h])]
  simp only
  rw [← filterMap_ite_eq]
  congr 1
  funext i
  exact parseCandidate_eq data _ cols rows thr i

theorem toInt_nonneg (q : ℚ) (h : 0 ≤ q) : 0 ≤ toInt q := by
  unfold toInt
  rw [if_pos h]
  exact Int.floor_nonneg.2 h

theorem toInt_le_of_le (q : ℚ) (n : Int) (h0 : 0 ≤ q) (h : q ≤ n) : toInt q ≤ n := by
  unfold toInt
  rw [if_pos h0]
  have h1 := Int.floor_le q
  have h2 : ((⌊q⌋ : Int) : ℚ) ≤ n := le_trans h1 h
  exact_mod_cast h2

theorem toInt_mono (a b : ℚ) (h0 : 0 ≤ a) (h : a ≤ b) : toInt a ≤ toInt b := by
  unfold toInt
  rw [if_pos h0, if_pos (le_trans h0 h)]
  exact Int.floor_mono h

theorem clip_nonneg (v : ℚ) (bound : Int) : 0 ≤ clip v bound := le_max_left _ _

theorem clip_neg_bound (v : ℚ) (bound : Int) (h : bound < 0) : clip v bound = 0 := by
  unfold clip
  have hq : (bound : ℚ) < 0 := by exact_mod_cast h
  exact max_eq_left (le_trans (min_le_right _ _) hq.le)

theorem clip_le (v : ℚ) (bound : Int) (h : 0 ≤ bound) : clip v bound ≤ bound := by
  unfold clip
  have hq : (0 : ℚ) ≤ bound := by exact_mod_cast h
  exact max_le hq (min_le_right _ _)

/-- Two clipped values that differ force a non-negative bound. -/
theorem bound_nonneg_of_clip_lt (u v : ℚ) (bound : Int) (h : clip u bound < clip v bound) :
    0 ≤ bound := by
  by_contra hb
  rw [clip_neg_bound u bound (by omega), clip_neg_bound v bound (by omega)] at h
  exact lt_irrefl _ h

/-! ## Claims on the decoded regions -/

/-- C17: for a 2000x1000 source and any threshold at or below 0.9, the single candidate
`(100, 356, 300, 456, 0.9, 0)` is decoded into exactly one region, of category 0
(`title`) with score 0.9, whose TL corner is within one pixel of `(195.3, 195.3)` and
whose BR corner is within one pixel of `(585.9, 390.6)`. -/
theorem parseYOLOv8Output_scenario (thr : ℚ) (h : thr ≤ 9 / 10) :
    ∃ b, parseYOLOv8Output scenarioRow [1, 1, 6] 2000 1000 thr = [b] ∧
      b.type = 0 ∧ b.typeName = "title" ∧ b.score = 9 / 10 ∧
      nearPoint (b.pt 0) (1953 / 10) (1953 / 10) ∧
      nearPoint (b.pt 2) (5859 / 10) (3906 / 10) := by
  have hconf : candConfidence scenarioRow 6 0 = 9 / 10 := by with_unfolding_all decide
  have hacc : candAccepted scenarioRow 6 2000 1000 thr 0 :=
    ⟨by rw [hconf]; exact h, by with_unfolding_all decide, by with_unfolding_all decide,
      by with_unfolding_all decide, by with_unfolding_all decide⟩
  have e1 : toInt (candX1 scenarioRow 6 2000 1000 0) = 195 := by with_unfolding_all decide
  have e2 : toInt (candY1 scenarioRow 6 2000 1000 0) = 195 := by with_unfolding_all decide
  have e3 : toInt (candX2 scenarioRow 6 2000 1000 0) = 585 := by with_unfolding_all decide
  have e4 : toInt (candY2 scenarioRow 6 2000 1000 0) = 390 := by with_unfolding_all decide
  have e5 : candClassId scenarioRow 6 0 = 0 := by with_unfolding_all decide
  have hreg : candRegion scenarioRow 6 2000 1000 0 = mkBox 195 195 585 390 (9 / 10) 0 "title" := by
    unfold candRegion
    rw [e1, e2, e3, e4, e5, hconf]
    rfl
  refine ⟨mkBox 195 195 585 390 (9 / 10) 0 "title", ?_, rfl, rfl, rfl,
    by with_unfolding_all decide, by with_unfolding_all decide⟩
  rw [parseYOLOv8Output_eq scenarioRow [1, 1, 6] 2000 1000 thr rfl]
  have hr : List.range (([1, 1, 6] : List Int).getD 1 0).toNat = [0] := by decide
  have hf : ([1, 1, 6] : List Int).getD 2 0 = 6 := by decide
  rw [hr, hf]
  simp [hacc, hreg]

/-- Instance of C17 for the threshold 0.5. -/
theorem parseYOLOv8Output_scenario_witness :
    (1 / 2 : ℚ) ≤ 9 / 10 ∧
    ∃ b, parseYOLOv8Output scenarioRow [1, 1, 6] 2000 1000 (1 / 2) = [b] ∧
      b.type = 0 ∧ b.typeName = "title" ∧ b.score = 9 / 10 ∧
      nearPoint (b.pt 0) (1953 / 10) (1953 / 10) ∧
      nearPoint (b.pt 2) (5859 / 10) (3906 / 10) :=
  ⟨by norm_num, parseYOLOv8Output_scenario (1 / 2) (by norm_num)⟩

/-- C18: for a rank-3 shape the result of `parseYOLOv8Output` is, in candidate order,
the region of every accepted candidate and nothing else; the region of an accepted
candidate has the candidate's confidence as score (at least the threshold), its class id
as category, the table entry at that class id as name, no OCR text, and four corners
TL, TR, BR, BL of an axis-aligned rectangle. -/
theorem parseYOLOv8Output_lists_accepted (data : List ℚ) (outputShape : List Int)
    (cols rows : Int) (thr : ℚ) (h : outputShape.length = 3) :
    parseYOLOv8Output data outputShape cols rows thr
      = ((List.range (outputShape.getD 1 0).toNat).filter
          (fun i => decide (candAccepted data (outputShape.getD 2 0) cols rows thr i))).map
          (candRegion data (outputShape.getD 2 0) cols rows) ∧
    ∀ i, candAccepted data (outputShape.getD 2 0) cols rows thr i →
      (candRegion data (outputShape.getD 2 0) cols rows i).score
        = candConfidence data (outputShape.getD 2 0) i ∧
      thr ≤ (candRegion data (outputShape.getD 2 0) cols rows i).score ∧
      (candRegion data (outputShape.getD 2 0) cols rows i).type
        = candClassId data (outputShape.getD 2 0) i ∧
      DOCLAYOUT_CLASSES.get? (candClassId data (outputShape.getD 2 0) i).toNat
        = some (candRegion data (outputShape.getD 2 0) cols rows i).typeName ∧
      (candRegion data (outputShape.getD 2 0) cols rows i).hasOcrText = false ∧
      ∃ x1 y1 x2 y2 : Int, x1 ≤ x2 ∧ y1 ≤ y2 ∧
        (candRegion data (outputShape.getD 2 0) cols rows i).boxPoint
          = [⟨x1, y1⟩, ⟨x2, y1⟩, ⟨x2, y2⟩, ⟨x1, y2⟩] := by
  refine ⟨parseYOLOv8Output_eq data outputShape cols rows thr h, ?_⟩
  intro i hacc
  obtain ⟨h1, h2, h3, h4, h5⟩ := hacc
  refine ⟨rfl, h1, rfl, ?_, rfl, _, _, _, _, ?_, ?_, rfl⟩
  · have hlt : (candClassId data (outputShape.getD 2 0) i).toNat < DOCLAYOUT_CLASSES.length := by
      have hlen : DOCLAYOUT_CLASSES.length = 10 := rfl
      omega
    show _ = some (DOCLAYOUT_CLASSES.getD _ "")
    rw [List.getD_eq_getElem _ _ hlt, List.get?_eq_getElem?, List.getElem?_eq_getElem hlt]
  · exact toInt_mono _ _ (clip_nonneg _ _) h4.le
  · exact toInt_mono _ _ (clip_nonneg _ _) h5.le

/-- Instance of C18 on the worked example. -/
theorem parseYOLOv8Output_lists_accepted_witness :
    ([1, 1, 6] : List Int).length = 3 ∧
    parseYOLOv8Output scenarioRow [1, 1, 6] 2000 1000 (1 / 2)
      = ((List.range (([1, 1, 6] : List Int).getD 1 0).toNat).filter
          (fun i => decide (candAccepted scenarioRow (([1, 1, 6] : List Int).getD 2 0)
            2000 1000 (1 / 2) i))).map
          (candRegion scenarioRow (([1, 1, 6] : List Int).getD 2 0) 2000 1000) :=
  ⟨by decide,
    (parseYOLOv8Output_lists_accepted scenarioRow [1, 1, 6] 2000 1000 (1 / 2) (by decide)).1⟩

/-- C19: every corner of every region returned by `parseYOLOv8Output` lies inside the
source image: `0 ≤ x ≤ cols` and `0 ≤ y ≤ rows`. -/
theorem parseYOLOv8Output_corners_in_image (data : List ℚ) (outputShape : List Int)
    (cols rows : Int) (thr : ℚ) (b : LayoutBox)
    (hb : b ∈ parseYOLOv8Output data outputShape cols rows thr) (p : Point)
    (hp : p ∈ b.boxPoint) :
    0 ≤ p.x ∧ p.x ≤ cols ∧ 0 ≤ p.y ∧ p.y ≤ rows := by
  by_cases hrank : outputShape.length = 3
  · rw [parseYOLOv8Output_eq data outputShape cols rows thr hrank] at hb
    obtain ⟨i, hi, hbi⟩ := List.mem_map.1 hb
    have hacc : candAccepted data (outputShape.getD 2 0) cols rows thr i := by
      simpa using (List.mem_filter.1 hi).2
    obtain ⟨_, _, _, h4, h5⟩ := hacc
    have hc : 0 ≤ cols := bound_nonneg_of_clip_lt _ _ cols h4
    have hr : 0 ≤ rows := bound_nonneg_of_clip_lt _ _ rows h5
    have hx1 : 0 ≤ toInt (candX1 data (outputShape.getD 2 0) cols rows i) :=
      toInt_nonneg _ (clip_nonneg _ _)
    have hx1' : toInt (candX1 data (outputShape.getD 2 0) cols rows i) ≤ cols :=
      toInt_le_of_le _ cols (clip_nonneg _ _) (clip_le _ cols hc)
    have hx2 : 0 ≤ toInt (candX2 data (outputShape.getD 2 0) cols rows i) :=
      toInt_nonneg _ (clip_nonneg _ _)
    have hx2' : toInt (candX2 data (outputShape.getD 2 0) cols rows i) ≤ cols :=
      toInt_le_of_le _ cols (clip_nonneg _ _) (clip_le _ cols hc)
    have hy1 : 0 ≤ toInt (candY1 data (outputShape.getD 2 0) cols rows i) :=
      toInt_nonneg _ (clip_nonneg _ _)
    have hy1' : toInt (candY1 data (outputShape.getD 2 0) cols rows i) ≤ rows :=
      toInt_le_of_le _ rows (clip_nonneg _ _) (clip_le _ rows hr)
    have hy2 : 0 ≤ toInt (candY2 data (outputShape.getD 2 0) cols rows i) :=
      toInt_nonneg _ (clip_nonneg _ _)
    have hy2' : toInt (candY2 data (outputShape.getD 2 0) cols rows i) ≤ rows :=
      toInt_le_of_le _ rows (clip_nonneg _ _) (clip_le _ rows hr)
    rw [← hbi] at hp
    simp only [candRegion, mkBox, List.mem_cons, List.mem_singleton, List.not_mem_nil,
      or_false] at hp
    rcases hp with hp | hp | hp | hp
    · rw [hp]; exact ⟨hx1, hx1', hy1, hy1'⟩
    · rw [hp]; exact ⟨hx2, hx2', hy1, hy1'⟩
    · rw [hp]; exact ⟨hx2, hx2', hy2, hy2'⟩
    · rw [hp]; exact ⟨hx1, hx1', hy2, hy2'⟩
  · unfold parseYOLOv8Output at hb
    rw [if_pos hrank] at hb
    simp at hb

/-- Instance of C19: the BR corner of the region decoded from `rowSevenColumns`. -/
theorem parseYOLOv8Output_corners_in_image_witness :
    mkBox 0 0 10 10 (7 / 8) 0 "title"
      ∈ parseYOLOv8Output rowSevenColumns [1, 1, 7] 1024 1024 (1 / 2) ∧
    (⟨10, 10⟩ : Point) ∈ (mkBox 0 0 10 10 (7 / 8) 0 "title").boxPoint ∧
    (0 : Int) ≤ (⟨10, 10⟩ : Point).x ∧ (⟨10, 10⟩ : Point).x ≤ 1024 ∧
    (0 : Int) ≤ (⟨10, 10⟩ : Point).y ∧ (⟨10, 10⟩ : Point).y ≤ 1024 :=
  ⟨by with_unfolding_all decide, by with_unfolding_all decide,
    parseYOLOv8Output_corners_in_image rowSevenColumns [1, 1, 7] 1024 1024 (1 / 2)
      (mkBox 0 0 10 10 (7 / 8) 0 "title") (by with_unfolding_all decide) ⟨10, 10⟩
      (by with_unfolding_all decide)⟩

/-! ## Structure of the markdown document -/

theorem structureLoop_eq (markdown : String) (i : Nat) (l : List LayoutBox) :
    structureLoop markdown i l = markdown ++ concatAll (structureEntries i l) := by
  induction l generalizing markdown i with
  | nil => simp [structureLoop, structureEntries, concatAll]
  | cons box rest ih =>
    simp only [structureLoop, structureEntries, concatAll, ih, String.append_assoc]

theorem formatsLoop_eq (markdown : String) (i : Nat) (l : List String) :
    formatsLoop markdown i l = markdown ++ concatAll (formatsPieces i l) := by
  induction l generalizing markdown i with
  | nil => simp [formatsLoop, formatsPieces, concatAll]
  | cons c rest ih =>
    simp only [formatsLoop, formatsPieces, concatAll, ih]
    split_ifs <;> simp [String.append_assoc]

theorem bulletLoop_eq (markdown : String) (m : List (String × Int)) :
    m.foldl (fun md pair => md ++ summaryBullet pair) markdown
      = markdown ++ concatAll (m.map summaryBullet) := by
  induction m generalizing markdown with
  | nil => simp [concatAll]
  | cons p rest ih => simp only [List.foldl_cons, List.map_cons, concatAll, ih,
      String.append_assoc]

/-- For a non-empty region sequence the document is the title line followed by the
summary block, the structure block and the trailing details. -/
theorem generateLayoutMarkdown_blocks (layoutBoxes : List LayoutBox) (t : ℚ)
    (h : layoutBoxes ≠ []) :
    generateLayoutMarkdown layoutBoxes t
      = titleBlock ++ (summaryBlock layoutBoxes ++ (structureBlock layoutBoxes
          ++ detailsBlock layoutBoxes t)) := by
  unfold generateLayoutMarkdown
  rw [if_neg (by simpa using h)]
  simp only [structureLoop_eq, formatsLoop_eq, bulletLoop_eq, titleBlock, summaryBlock,
    structureBlock, detailsBlock, summaryPairs, String.append_assoc]

theorem structureEntries_length (i : Nat) (l : List LayoutBox) :
    (structureEntries i l).length = l.length := by
  induction l generalizing i with
  | nil => rfl
  | cons b rest ih => simp [structureEntries, ih]

theorem sortByTop_perm (l : List LayoutBox) : (sortByTop l).Perm l :=
  List.perm_insertionSort _ l

theorem sortByTop_sorted (l : List LayoutBox) :
    (sortByTop l).Pairwise (fun a b => (a.pt 0).y ≤ (b.pt 0).y) := by
  haveI : IsTotal LayoutBox (fun a b => (a.pt 0).y ≤ (b.pt 0).y) := ⟨fun a b => le_total _ _⟩
  haveI : IsTrans LayoutBox (fun a b => (a.pt 0).y ≤ (b.pt 0).y) :=
    ⟨fun _ _ _ h1 h2 => le_trans h1 h2⟩
  exact List.sorted_insertionSort (fun a b : LayoutBox => (a.pt 0).y ≤ (b.pt 0).y) l

/-! ## Properties of the category counts (`classCounts`) -/

theorem countPush_keys (m : List (String × Int)) (k k' : String) :
    k' ∈ (countPush m k).map Prod.fst ↔ k' = k ∨ k' ∈ m.map Prod.fst := by
  induction m with
  | nil => simp [countPush]
  | cons p rest ih =>
    obtain ⟨kp, n⟩ := p
    unfold countPush
    split_ifs with h1 h2
    · simp
    · subst h2
      simp
    · simp only [List.map_cons, List.mem_cons, ih]
      tauto

theorem countPush_sorted (m : List (String × Int)) (k : String)
    (hs : (m.map Prod.fst).Pairwise (fun a c => a < c)) :
    ((countPush m k).map Prod.fst).Pairwise (fun a c => a < c) := by
  induction m with
  | nil => simp [countPush]
  | cons p rest ih =>
    obtain ⟨kp, n⟩ := p
    simp only [List.map_cons, List.pairwise_cons] at hs
    unfold countPush
    split_ifs with h1 h2
    · simp only [List.map_cons, List.pairwise_cons, List.mem_cons]
      refine ⟨?_, hs.1, hs.2⟩
      rintro a (ha | ha)
      · rw [ha]; exact h1
      · exact lt_trans h1 (hs.1 a ha)
    · simp only [List.map_cons, List.pairwise_cons]
      exact ⟨hs.1, hs.2⟩
    · simp only [List.map_cons, List.pairwise_cons]
      refine ⟨?_, ih hs.2⟩
      intro a ha
      rcases (countPush_keys rest k a).1 ha with ha | ha
      · rw [ha]
        exact lt_of_le_of_ne (not_lt.1 h1) (fun h => h2 h.symm)
      · exact hs.1 a ha

theorem countPush_values (m : List (String × Int)) (k : String)
    (hs : (m.map Prod.fst).Pairwise (fun a c => a < c)) :
    ∀ p ∈ countPush m k,
      (p ∈ m ∧ p.1 ≠ k) ∨ (p.1 = k ∧ ∃ n, (k, n) ∈ m ∧ p.2 = n + 1) ∨
        (p = (k, 1) ∧ k ∉ m.map Prod.fst) := by
  induction m with
  | nil =>
    intro p hp
    simp only [countPush, List.mem_singleton] at hp
    simp [hp]
  | cons q rest ih =>
    obtain ⟨kq, n⟩ := q
    simp only [List.map_cons, List.pairwise_cons] at hs
    intro p hp
    unfold countPush at hp
    split_ifs at hp with h1 h2
    · rcases List.mem_cons.1 hp with hp | hp
      · right; right
        refine ⟨hp, ?_⟩
        simp only [List.map_cons, List.mem_cons, not_or]
        exact ⟨ne_of_lt h1, fun hk => lt_irrefl k (lt_trans h1 (hs.1 k hk))⟩
      · left
        refine ⟨hp, ?_⟩
        rcases List.mem_cons.1 hp with hp | hp
        · rw [hp]
          exact fun h => ne_of_lt h1 h.symm
        · have := hs.1 p.1 (List.mem_map_of_mem Prod.fst hp)
          exact fun h => lt_irrefl k (lt_trans h1 (h ▸ this))
    · subst h2
      rcases List.mem_cons.1 hp with hp | hp
      · right; left
        rw [hp]
        exact ⟨rfl, n, List.mem_cons_self _ _, rfl⟩
      · left
        refine ⟨List.mem_cons_of_mem _ hp, ?_⟩
        have := hs.1 p.1 (List.mem_map_of_mem Prod.fst hp)
        exact fun h => lt_irrefl k (h ▸ this)
    · rcases List.mem_cons.1 hp with hp | hp
      · left
        rw [hp]
        exact ⟨List.mem_cons_self _ _, fun h => h2 h.symm⟩
      · rcases ih hs.2 p hp with ⟨h3, h4⟩ | ⟨h3, w, h4, h5⟩ | ⟨h3, h4⟩
        · exact Or.inl ⟨List.mem_cons_of_mem _ h3, h4⟩
        · exact Or.inr (Or.inl ⟨h3, w, List.mem_cons_of_mem _ h4, h5⟩)
        · right; right
          refine ⟨h3, ?_⟩
          simp only [List.map_cons, List.mem_cons, not_or]
          exact ⟨h2, h4⟩

theorem countPush_sum (m : List (String × Int)) (k : String) :
    ((countPush m k).map Prod.snd).sum = (m.map Prod.snd).sum + 1 := by
  induction m with
  | nil => simp [countPush]
  | cons p rest ih =>
    obtain ⟨kp, n⟩ := p
    unfold countPush
    split_ifs with h1 h2
    · simp only [List.map_cons, List.sum_cons]
      omega
    · simp only [List.map_cons, List.sum_cons]
      omega
    · simp only [List.map_cons, List.sum_cons, ih]
      omega

theorem classCounts_snoc (L : List LayoutBox) (b : LayoutBox) :
    classCounts (L ++ [b]) = countPush (classCounts L) b.typeName := by
  simp [classCounts, List.foldl_append]

theorem classCounts_sum (L : List LayoutBox) :
    ((classCounts L).map Prod.snd).sum = (L.length : Int) := by
  induction L using List.reverseRecOn with
  | nil => simp [classCounts]
  | append_singleton L b ih =>
    rw [classCounts_snoc, countPush_sum, ih]
    simp

/-- The count map has strictly increasing keys, stores under each name the number of
boxes with that name, and has a key for every name that occurs. -/
theorem classCounts_inv (L : List LayoutBox) :
    ((classCounts L).map Prod.fst).Pairwise (fun a c => a < c) ∧
    (∀ p ∈ classCounts L, p.2 = (L.countP (fun x => decide (x.typeName = p.1)) : Int)) ∧
    (∀ x ∈ L, x.typeName ∈ (classCounts L).map Prod.fst) := by
  induction L using List.reverseRecOn with
  | nil => simp [classCounts]
  | append_singleton L b ih =>
    obtain ⟨hs, hv, hc⟩ := ih
    rw [classCounts_snoc]
    refine ⟨countPush_sorted _ _ hs, ?_, ?_⟩
    · intro p hp
      rcases countPush_values _ _ hs p hp with ⟨h1, h2⟩ | ⟨h1, w, h2, h3⟩ | ⟨h1, h2⟩
      · rw [hv p h1, List.countP_append]
        have : decide (b.typeName = p.1) = false := by simpa using fun h => h2 h.symm
        simp [List.countP_cons, this]
      · have hw := hv _ h2
        simp only at hw
        rw [h3, hw, h1, List.countP_append]
        simp [List.countP_cons]
      · have hzero : L.countP (fun x => decide (x.typeName = b.typeName)) = 0 := by
          rw [List.countP_eq_zero]
          intro a ha hda
          have : a.typeName = b.typeName := by simpa using hda
          exact h2 (this ▸ hc a ha)
        rw [h1, List.countP_append]
        simp [List.countP_cons, hzero]
    · intro x hx
      rw [countPush_keys]
      rcases List.mem_append.1 hx with hx | hx
      · exact Or.inr (hc x hx)
      · left
        rw [List.mem_singleton.1 hx]

theorem classCounts_key_present (L : List LayoutBox) (k : String)
    (hk : k ∈ (classCounts L).map Prod.fst) : ∃ b ∈ L, b.typeName = k := by
  induction L using List.reverseRecOn with
  | nil => simp [classCounts] at hk
  | append_singleton L b ih =>
    rw [classCounts_snoc, countPush_keys] at hk
    rcases hk with hk | hk
    · exact ⟨b, by simp, hk.symm⟩
    · obtain ⟨c, hc, hck⟩ := ih hk
      exact ⟨c, List.mem_append_left _ hc, hck⟩

/-! ## The entries and bullets of the markdown document -/

theorem foldl_append_eq_concatAll (acc : String) (l : List String) :
    l.foldl (fun r s => r ++ s) acc = acc ++ concatAll l := by
  induction l generalizing acc with
  | nil => simp [concatAll]
  | cons s rest ih => simp only [List.foldl_cons, concatAll, ih, String.append_assoc]

theorem join_eq_concatAll (l : List String) : String.join l = concatAll l := by
  unfold String.join
  rw [foldl_append_eq_concatAll]
  simp

theorem structureEntries_eq_map (i : Nat) (l : List LayoutBox) :
    structureEntries i l = (l.enumFrom i).map (fun ib => structureEntry ib.1 ib.2) := by
  induction l generalizing i with
  | nil => rfl
  | cons b rest ih => simp [structureEntries, List.enumFrom, ih]

theorem structureEntry_title (i : Nat) (box : LayoutBox) (h : box.typeName = "title") :
    structureEntry i box = "### Title " ++ toString (i + 1) ++ "\n\n" := by
  unfold structureEntry
  rw [if_pos h, h]
  have h1 : displayName "title" = "Title" := by with_unfolding_all decide
  have h2 : "### Title " = "### " ++ ("Title" ++ " ") := by decide
  rw [h1, h2]
  simp only [String.append_assoc]

theorem structureEntry_plain (i : Nat) (box : LayoutBox) (h : box.typeName = "plain text") :
    structureEntry i box
      = "**Text Region** (Confidence: " ++ toString (toInt (box.score * 100)) ++ "%)\n\n" ++
        ("> Location: (" ++ toString (box.pt 0).x ++ ", " ++ toString (box.pt 0).y ++ ") → (" ++
          toString (box.pt 2).x ++ ", " ++ toString (box.pt 2).y ++ ")\n\n") := by
  unfold structureEntry
  rw [if_neg (by rw [h]; decide), if_pos h]
  rfl

theorem structureEntry_figure (i : Nat) (box : LayoutBox) (h : box.typeName = "figure") :
    structureEntry i box
      = "**Figure/Image** (Confidence: " ++ toString (toInt (box.score * 100)) ++ "%)\n\n" ++
        ("![Figure](image://" ++ toString i ++ ")\n\n") ++
        ("*Figure location: (" ++ toString (box.pt 0).x ++ ", " ++ toString (box.pt 0).y ++
          ")*\n\n") := by
  unfold structureEntry
  rw [if_neg (by rw [h]; decide), if_neg (by rw [h]; decide), if_pos h]
  rfl

theorem structureEntry_table (i : Nat) (box : LayoutBox) (h : box.typeName = "table") :
    structureEntry i box
      = "**Table** (Confidence: " ++ toString (toInt (box.score * 100)) ++ "%)\n\n" ++
        "| Column 1 | Column 2 | Column 3 |\n" ++
        "|----------|----------|----------|\n" ++
        "| Data 1   | Data 2   | Data 3   |\n" ++
        "| Data 4   | Data 5   | Data 6   |\n\n" := by
  unfold structureEntry
  rw [if_neg (by rw [h]; decide), if_neg (by rw [h]; decide), if_neg (by rw [h]; decide),
    if_pos h]
  rfl

theorem structureEntry_other (i : Nat) (box : LayoutBox) (h1 : box.typeName ≠ "title")
    (h2 : box.typeName ≠ "plain text") (h3 : box.typeName ≠ "figure")
    (h4 : box.typeName ≠ "table") :
    structureEntry i box
      = "**" ++ (box.typeName.map (fun c => if c = '_' then ' ' else c)).capitalize ++
        "** (Confidence: " ++ toString (toInt (box.score * 100)) ++ "%)\n\n" := by
  unfold structureEntry
  rw [if_neg h1, if_neg h2, if_neg h3, if_neg h4]
  rfl

theorem summaryBullet_eq :
    summaryBullet = fun p : String × Int =>
      "- **" ++ (p.1.map (fun c => if c = '_' then ' ' else c)).capitalize ++ "**: " ++
        toString p.2 ++ "\n" := rfl

/-! ## Claims on the markdown document, the empty case and the category table -/

/-- C13: when every candidate of the array (there may be none) has a confidence below
the threshold, `parseYOLOv8Output` returns no region, `nmsBoxes` of that is empty, and
`generateLayoutMarkdown` of the result is the fixed message, whatever the elapsed time. -/
theorem empty_detection_message (data : List ℚ) (outputShape : List Int) (cols rows : Int)
    (thr iou : ℚ)
    (h : ∀ i, i < (outputShape.getD 1 0).toNat →
      candConfidence data (outputShape.getD 2 0) i < thr) :
    parseYOLOv8Output data outputShape cols rows thr = [] ∧
    nmsBoxes (parseYOLOv8Output data outputShape cols rows thr) iou = [] ∧
    ∀ t, generateLayoutMarkdown (nmsBoxes (parseYOLOv8Output data outputShape cols rows thr) iou) t
      = "# Document Analysis Results\n\nNo layout regions detected." := by
  have hparse : parseYOLOv8Output data outputShape cols rows thr = [] := by
    by_cases hrank : outputShape.length = 3
    · rw [parseYOLOv8Output_eq data outputShape cols rows thr hrank, List.map_eq_nil_iff,
        List.filter_eq_nil_iff]
      intro i hi hacc
      have hacc2 : candAccepted data (outputShape.getD 2 0) cols rows thr i := by
        simpa using hacc
      exact absurd hacc2.1 (not_le.2 (h i (List.mem_range.1 hi)))
    · unfold parseYOLOv8Output
      rw [if_pos hrank]
  have hnms : nmsBoxes (parseYOLOv8Output data outputShape cols rows thr) iou = [] := by
    rw [hparse]
    rfl
  refine ⟨hparse, hnms, ?_⟩
  intro t
  rw [hnms]
  rfl

/-- Instance of C13: one candidate of confidence 0.1 against the threshold 0.5. -/
theorem empty_detection_message_witness :
    (∀ i, i < (([1, 1, 6] : List Int).getD 1 0).toNat →
      candConfidence rowLowConfidence (([1, 1, 6] : List Int).getD 2 0) i < 1 / 2) ∧
    parseYOLOv8Output rowLowConfidence [1, 1, 6] 1024 1024 (1 / 2) = [] ∧
    nmsBoxes (parseYOLOv8Output rowLowConfidence [1, 1, 6] 1024 1024 (1 / 2)) (2 / 5) = [] ∧
    ∀ t, generateLayoutMarkdown
        (nmsBoxes (parseYOLOv8Output rowLowConfidence [1, 1, 6] 1024 1024 (1 / 2)) (2 / 5)) t
      = "# Document Analysis Results\n\nNo layout regions detected." :=
  ⟨by with_unfolding_all decide,
    empty_detection_message rowLowConfidence [1, 1, 6] 1024 1024 (1 / 2) (2 / 5)
      (by with_unfolding_all decide)⟩

/-- C14: for a non-empty region sequence the document is the title line, the summary
block, the heading "Document Structure", then one entry per region of
`sortByTop layoutBoxes` in that order (entry `i` written from the region at position
`i`), then the details.  That sequence is a permutation of the input ordered by
non-decreasing top edge `boxPoint[0].y`, and the entry written at position `i` shows its
region: a numbered heading for a title, the confidence with the TL and BR corners for
plain text, the confidence, an image placeholder and the TL corner for a figure, the
confidence and a table skeleton for a table, the display name and the confidence for
every other category. -/
theorem structure_section_sorted_permutation (layoutBoxes : List LayoutBox) (t : ℚ)
    (h : layoutBoxes ≠ []) :
    generateLayoutMarkdown layoutBoxes t
      = titleBlock ++ (summaryBlock layoutBoxes ++ ("## Document Structure\n\n" ++
          (String.join ((sortByTop layoutBoxes).enum.map
              (fun ib => structureEntry ib.1 ib.2)) ++
            detailsBlock layoutBoxes t))) ∧
    ((sortByTop layoutBoxes).enum.map (fun ib => structureEntry ib.1 ib.2)).length
      = layoutBoxes.length ∧
    (sortByTop layoutBoxes).Perm layoutBoxes ∧
    (sortByTop layoutBoxes).Pairwise (fun a b => (a.pt 0).y ≤ (b.pt 0).y) ∧
    (∀ (i : Nat) (box : LayoutBox),
      (box.typeName = "title" →
        structureEntry i box = "### Title " ++ toString (i + 1) ++ "\n\n") ∧
      (box.typeName = "plain text" →
        structureEntry i box
          = "**Text Region** (Confidence: " ++ toString (toInt (box.score * 100)) ++
              "%)\n\n" ++
            ("> Location: (" ++ toString (box.pt 0).x ++ ", " ++ toString (box.pt 0).y ++
              ") → (" ++ toString (box.pt 2).x ++ ", " ++ toString (box.pt 2).y ++
              ")\n\n")) ∧
      (box.typeName = "figure" →
        structureEntry i box
          = "**Figure/Image** (Confidence: " ++ toString (toInt (box.score * 100)) ++
              "%)\n\n" ++
            ("![Figure](image://" ++ toString i ++ ")\n\n") ++
            ("*Figure location: (" ++ toString (box.pt 0).x ++ ", " ++
              toString (box.pt 0).y ++ ")*\n\n")) ∧
      (box.typeName = "table" →
        structureEntry i box
          = "**Table** (Confidence: " ++ toString (toInt (box.score * 100)) ++ "%)\n\n" ++
            "| Column 1 | Column 2 | Column 3 |\n" ++
            "|----------|----------|----------|\n" ++
            "| Data 1   | Data 2   | Data 3   |\n" ++
            "| Data 4   | Data 5   | Data 6   |\n\n") ∧
      (box.typeName ≠ "title" → box.typeName ≠ "plain text" → box.typeName ≠ "figure" →
        box.typeName ≠ "table" →
        structureEntry i box
          = "**" ++ (box.typeName.map (fun c => if c = '_' then ' ' else c)).capitalize ++
            "** (Confidence: " ++ toString (toInt (box.score * 100)) ++ "%)\n\n")) := by
  refine ⟨?_, ?_, sortByTop_perm layoutBoxes, sortByTop_sorted layoutBoxes, ?_⟩
  · rw [generateLayoutMarkdown_blocks layoutBoxes t h, join_eq_concatAll]
    unfold structureBlock List.enum
    rw [structureEntries_eq_map, String.append_assoc]
  · rw [List.length_map, List.enum_length, (sortByTop_perm layoutBoxes).length_eq]
  · intro i box
    exact ⟨structureEntry_title i box, structureEntry_plain i box,
      structureEntry_figure i box, structureEntry_table i box,
      structureEntry_other i box⟩

/-- Instance of C14 on `pageBoxes`: the figure given first is rendered second, between
the two titles, each entry with the fields of its region. -/
theorem structure_section_sorted_permutation_witness :
    pageBoxes ≠ [] ∧
    sortByTop pageBoxes
      = [mkBox 0 5 10 9 (3 / 4) 0 "title", mkBox 0 50 10 60 (1 / 2) 3 "figure",
         mkBox 0 70 10 80 (1 / 4) 0 "title"] ∧
    String.join ((sortByTop pageBoxes).enum.map (fun ib => structureEntry ib.1 ib.2))
      = "### Title 1\n\n**Figure/Image** (Confidence: 50%)\n\n![Figure](image://1)\n\n*Figure location: (0, 50)*\n\n### Title 3\n\n" ∧
    (sortByTop pageBoxes).Perm pageBoxes ∧
    (sortByTop pageBoxes).Pairwise (fun a b => (a.pt 0).y ≤ (b.pt 0).y) :=
  ⟨by decide, by with_unfolding_all decide, by with_unfolding_all decide,
    (structure_section_sorted_permutation pageBoxes 0 (by decide)).2.2.1,
    (structure_section_sorted_permutation pageBoxes 0 (by decide)).2.2.2.1⟩

/-- C15 as stated fails: the table entry at index 1 is `plain text`, written with a
space, where the specification lists `plain_text`. -/
theorem category_table_index_one :
    DOCLAYOUT_CLASSES.get? 1 = some "plain text" ∧
    specCategoryNames.get? 1 = some "plain_text" ∧
    DOCLAYOUT_CLASSES.get? 1 ≠ specCategoryNames.get? 1 := by
  decide

/-- C15, amended: the category table has exactly 10 entries; at every index other than 1
the entry is the name the specification lists, and at index 1 it is `plain text` (with a
space); the entry at index `i` is what `layoutTypeToString` returns for the `LayoutType`
enumerator of numeric value `i`, and the enumerators have the values 0 to 9 in
declaration order (`UNKNOWN` is -1 and maps to `unknown`). -/
theorem category_table_matches_enumeration :
    DOCLAYOUT_CLASSES.length = 10 ∧
    (∀ i, i < 10 → i ≠ 1 → DOCLAYOUT_CLASSES.get? i = specCategoryNames.get? i) ∧
    DOCLAYOUT_CLASSES.get? 1 = some "plain text" ∧
    LayoutType.all.map LayoutType.value = [0, 1, 2, 3, 4, 5, 6, 7, 8, 9, -1] ∧
    (∀ ty ∈ LayoutType.all, ty ≠ LayoutType.UNKNOWN →
      DOCLAYOUT_CLASSES.get? ty.value.toNat = some (layoutTypeToString ty)) ∧
    layoutTypeToString LayoutType.UNKNOWN = "unknown" := by
  refine ⟨by decide, by decide, by decide, by decide, by decide, by decide⟩

/-- C20: for a non-empty region sequence the document is the title line, the heading
"Document Summary", one bullet per pair of `summaryPairs` reading
`- **Name**: number` (the name with underscores as spaces and its first letter in capital,
the number in decimal), an empty line, then the structure block and the details.  The
names of the pairs are pairwise distinct and are exactly the category names that occur
among the regions, the number of each pair is the number of regions with that name, and
the numbers add up to the number of regions. -/
theorem summary_block_counts (layoutBoxes : List LayoutBox) (t : ℚ) (h : layoutBoxes ≠ []) :
    generateLayoutMarkdown layoutBoxes t
      = "# Document Layout Analysis (DOCLAYOUT_DOCSTRUCTBENCH)\n\n" ++
        ("## Document Summary\n\n" ++
          (String.join ((summaryPairs layoutBoxes).map (fun p =>
              "- **" ++ (p.1.map (fun c => if c = '_' then ' ' else c)).capitalize ++
                "**: " ++ toString p.2 ++ "\n")) ++
            ("\n" ++ (structureBlock layoutBoxes ++ detailsBlock layoutBoxes t)))) ∧
    ((summaryPairs layoutBoxes).map Prod.fst).Nodup ∧
    (∀ name, name ∈ (summaryPairs layoutBoxes).map Prod.fst
      ↔ ∃ b ∈ layoutBoxes, b.typeName = name) ∧
    (∀ p ∈ summaryPairs layoutBoxes,
      p.2 = (layoutBoxes.countP (fun b => decide (b.typeName = p.1)) : Int)) ∧
    ((summaryPairs layoutBoxes).map Prod.snd).sum = (layoutBoxes.length : Int) := by
  obtain ⟨hs, hv, hc⟩ := classCounts_inv (sortByTop layoutBoxes)
  have hperm := sortByTop_perm layoutBoxes
  refine ⟨?_, ?_, ?_, ?_, ?_⟩
  · rw [generateLayoutMarkdown_blocks layoutBoxes t h, join_eq_concatAll, ← summaryBullet_eq]
    unfold titleBlock summaryBlock
    simp only [String.append_assoc]
  · exact List.Pairwise.imp (fun hlt => ne_of_lt hlt) hs
  · intro name
    constructor
    · intro hk
      obtain ⟨b, hb, hbn⟩ := classCounts_key_present (sortByTop layoutBoxes) name hk
      exact ⟨b, hperm.mem_iff.1 hb, hbn⟩
    · rintro ⟨b, hb, hbn⟩
      rw [← hbn]
      exact hc b (hperm.mem_iff.2 hb)
  · intro p hp
    rw [hv p hp, hperm.countP_eq]
  · show ((classCounts (sortByTop layoutBoxes)).map Prod.snd).sum = _
    rw [classCounts_sum, hperm.length_eq]

/-- Instance of C20 on `pageBoxes`: two bullets, `Figure` with 1 and `Title` with 2. -/
theorem summary_block_counts_witness :
    pageBoxes ≠ [] ∧ summaryPairs pageBoxes = [("figure", 1), ("title", 2)] ∧
    String.join ((summaryPairs pageBoxes).map (fun p =>
        "- **" ++ (p.1.map (fun c => if c = '_' then ' ' else c)).capitalize ++
          "**: " ++ toString p.2 ++ "\n"))
      = "- **Figure**: 1\n- **Title**: 2\n" ∧
    ((summaryPairs pageBoxes).map Prod.snd).sum = (pageBoxes.length : Int) :=
  ⟨by decide, by with_unfolding_all decide, by with_unfolding_all decide,
    (summary_block_counts pageBoxes 0 (by decide)).2.2.2.2⟩

/-! ## Claims on the display names, the overlay colours and the second letterbox -/

/-- C21 as stated fails: `figure_caption`, a name of the category table, is shown as
`Figure caption`; title case would be `Figure Caption`. -/
theorem displayName_not_title_case :
    "figure_caption" ∈ DOCLAYOUT_CLASSES ∧
    displayName "figure_caption" = "Figure caption" ∧
    titleCaseSpec "figure_caption" = "Figure Caption" ∧
    displayName "figure_caption" ≠ titleCaseSpec "figure_caption" := by
  refine ⟨by decide, ?_, ?_, ?_⟩ <;> with_unfolding_all decide

/-- C21, amended: for every name of the category table the display name of its summary
bullet is the name with every underscore replaced by a space and only its first
character upper-cased (`figure_caption` is shown as `Figure caption`). -/
theorem displayName_first_upper :
    DOCLAYOUT_CLASSES.map displayName
      = ["Title", "Plain text", "Abandon", "Figure", "Figure caption", "Table",
         "Table caption", "Table footnote", "Isolate formula", "Formula caption"] ∧
    ∀ name ∈ DOCLAYOUT_CLASSES,
      displayName name = firstUpperSpec name ∧
      ∀ n : Int, summaryBullet (name, n)
        = "- **" ++ firstUpperSpec name ++ "**: " ++ toString n ++ "\n" := by
  have hall : ∀ name ∈ DOCLAYOUT_CLASSES, displayName name = firstUpperSpec name := by
    with_unfolding_all decide
  refine ⟨by with_unfolding_all decide, ?_⟩
  intro name hname
  refine ⟨hall name hname, ?_⟩
  intro n
  unfold summaryBullet
  rw [hall name hname]

/-- C22 (defect): the colour returned by `getLayoutColor` does not depend on the category
but on the generator state: with the sample generator started at 1, two successive calls
for category 0 return different colours, and for a single region the fill colour of the
mask differs from the colour of its border. -/
theorem getLayoutColor_depends_on_rand_state :
    (∀ (rand : Nat → Nat × Nat) (t1 t2 : Int) (s : Nat),
      getLayoutColor rand t1 s = getLayoutColor rand t2 s) ∧
    (getLayoutColor stdRand 0 1).1 = ⟨198, 126, 129⟩ ∧
    (getLayoutColor stdRand 0 (getLayoutColor stdRand 0 1).2).1 = ⟨107, 75, 251⟩ ∧
    (drawLayoutDetections stdRand [boxA] 1).1 = ([⟨198, 126, 129⟩], [⟨107, 75, 251⟩]) := by
  refine ⟨fun _ _ _ _ => rfl, ?_, ?_, ?_⟩ <;> decide

/-- C23 (defect): for a 1023x1024 source `preprocessImageLetterbox` resizes to width 1023
and pads `round(0.5 - 0.1) = 0` columns on each side, so the padded image is 1023 wide:
`newWidth + 2 * padW` is 1023, not 1024. -/
theorem preprocessImageLetterbox_1023x1024 :
    (preprocessImageLetterbox 1023 1024).newWidth = 1023 ∧
    (preprocessImageLetterbox 1023 1024).params.padW = 0 ∧
    (preprocessImageLetterbox 1023 1024).paddedWidth = 1023 ∧
    (preprocessImageLetterbox 1023 1024).newWidth
      + 2 * (preprocessImageLetterbox 1023 1024).params.padW ≠ 1024 := by
  refine ⟨?_, ?_, ?_, ?_⟩ <;> with_unfolding_all decide

/-- C25 as stated fails: for a 1x4096 source the gain is 1/4 and the resize width is
`round(0.25) = 0`. -/
theorem preprocessImage_zero_width :
    (preprocessImage 1 4096).r = 1 / 4 ∧ (preprocessImage 1 4096).newW = 0 := by
  constructor <;> with_unfolding_all decide

theorem one_le_cRound (q : ℚ) (h : 1 / 2 ≤ q) : 1 ≤ cRound q := by
  unfold cRound
  rw [if_pos (by linarith)]
  exact Int.le_floor.2 (by push_cast; linarith)

/-- C25, amended: for every source size with `W, H ≥ 1` whose longer side is at most
2047 times the shorter one (`H ≤ 2047 * W` and `W ≤ 2047 * H`), the resize target of
`preprocessImage` has `newW ≥ 1` and `newH ≥ 1`: both scaled sides are at least
`1024 / 2047`, which lies above the rounding point 1/2 by more than the error of a
single-precision product. -/
theorem preprocessImage_resize_target_positive (W H : Int) (hW : 1 ≤ W) (hH : 1 ≤ H)
    (hWH : H ≤ 2047 * W) (hHW : W ≤ 2047 * H) :
    1 ≤ (preprocessImage W H).newW ∧ 1 ≤ (preprocessImage W H).newH := by
  have hwq : (0 : ℚ) < W := by exact_mod_cast (by omega : (0 : Int) < W)
  have hhq : (0 : ℚ) < H := by exact_mod_cast (by omega : (0 : Int) < H)
  have hWHq : (H : ℚ) ≤ 2047 * W := by exact_mod_cast hWH
  have hHWq : (W : ℚ) ≤ 2047 * H := by exact_mod_cast hHW
  have hg : decoderGain W H = min ((1024 : ℚ) / W) ((1024 : ℚ) / H) := by
    unfold decoderGain INPUT_WIDTH INPUT_HEIGHT
    push_cast
    rfl
  have h1 : (1 : ℚ) / 2 ≤ W * decoderGain W H := by
    rw [hg, mul_min_of_nonneg _ _ hwq.le]
    refine le_min ?_ ?_
    · rw [mul_div_cancel₀ _ hwq.ne']
      norm_num
    · rw [← mul_div_assoc, le_div_iff₀ hhq]
      linarith
  have h2 : (1 : ℚ) / 2 ≤ H * decoderGain W H := by
    rw [hg, mul_min_of_nonneg _ _ hhq.le]
    refine le_min ?_ ?_
    · rw [← mul_div_assoc, le_div_iff₀ hwq]
      linarith
    · rw [mul_div_cancel₀ _ hhq.ne']
      norm_num
  exact ⟨by rw [preprocessImage_newW]; exact one_le_cRound _ h1,
    by rw [preprocessImage_newH]; exact one_le_cRound _ h2⟩

/-- Instance of the amended C25 for a 2000x1000 source. -/
theorem preprocessImage_resize_target_positive_witness :
    1 ≤ (preprocessImage 2000 1000).newW ∧ 1 ≤ (preprocessImage 2000 1000).newH :=
  preprocessImage_resize_target_positive 2000 1000 (by decide) (by decide) (by decide)
    (by decide)

/-! ## The suppression loop of `nmsBoxesImproved` against `nmsLoop` -/

theorem getD_set_ne (F : List Bool) (i j : Nat) (v : Bool) (h : i ≠ j) :
    (F.set j v).getD i false = F.getD i false := by
  rw [List.getD_eq_getElem?_getD, List.getD_eq_getElem?_getD, List.getElem?_set]
  rw [if_neg (fun hji => h hji.symm)]

theorem getD_set_same (F : List Bool) (j : Nat) (hj : j < F.length) :
    (F.set j true).getD j false = true := by
  rw [List.getD_eq_getElem?_getD, List.getElem?_set]
  simp [hj]

theorem markImproved_length (thr : ℚ) (S : List LayoutBox) (idx : Nat) (rest : List Nat)
    (F : List Bool) : (markImproved thr S idx rest F).length = F.length := by
  induction rest generalizing F with
  | nil => rfl
  | cons j r ih =>
    unfold markImproved
    rw [ih]
    split_ifs
    · exact List.length_set _ _ _
    · rfl

theorem markImproved_outside (thr : ℚ) (S : List LayoutBox) (idx : Nat) (rest : List Nat)
    (F : List Bool) (i : Nat) (hi : i ∉ rest) :
    (markImproved thr S idx rest F).getD i false = F.getD i false := by
  induction rest generalizing F with
  | nil => rfl
  | cons j r ih =>
    simp only [List.mem_cons, not_or] at hi
    unfold markImproved
    rw [ih _ hi.2]
    split_ifs
    · exact getD_set_ne F i j true hi.1
    · rfl

theorem markImproved_local (thr : ℚ) (S : List LayoutBox) (idx : Nat) (rest : List Nat)
    (F : List Bool) (hnd : rest.Nodup) (hb : ∀ j ∈ rest, j < F.length) :
    rest.map (fun j => (markImproved thr S idx rest F).getD j false)
      = markSuppressed thr (boxAt S idx) (rest.map (boxAt S))
          (rest.map (fun j => F.getD j false)) := by
  induction rest generalizing F with
  | nil => rfl
  | cons j r ih =>
    have hnd' := List.nodup_cons.1 hnd
    have hj : j < F.length := hb j (List.mem_cons_self _ _)
    simp only [List.map_cons, markSuppressed, List.headD_cons, List.tail_cons]
    unfold markImproved
    congr 1
    · rw [markImproved_outside _ _ _ _ _ _ hnd'.1]
      by_cases hc : thr < calculateIoU (boxAt S idx) (boxAt S j)
      · cases hf : F.getD j false
        · simp [-List.getD_eq_getElem?_getD, hf, hc, getD_set_same F j hj]
        · simp [-List.getD_eq_getElem?_getD, hf, hc]
      · cases hf : F.getD j false <;> simp [-List.getD_eq_getElem?_getD, hf, hc]
    · have hset : ∀ G : List Bool, G.length = F.length →
          (∀ i ∈ r, G.getD i false = F.getD i false) →
          r.map (fun i => (markImproved thr S idx r G).getD i false)
            = markSuppressed thr (boxAt S idx) (r.map (boxAt S))
                (r.map (fun i => F.getD i false)) := by
        intro G hlen hG
        rw [ih G hnd'.2 (fun i hi => by rw [hlen]; exact hb i (List.mem_cons_of_mem _ hi))]
        congr 1
        exact List.map_congr_left hG
      split_ifs
      · exact hset _ (List.length_set _ _ _)
          (fun i hi => getD_set_ne F i j true (fun h => hnd'.1 (h ▸ hi)))
      · exact hset F rfl (fun _ _ => rfl)

/-- Run on the indices of one class, the loop of `nmsBoxesImproved` appends to `result`
what `nmsLoop` returns on the boxes at these indices with their flags, and leaves the
flags at all other indices untouched. -/
theorem improvedClassLoop_eq (thr : ℚ) (S : List LayoutBox) (idxs : List Nat)
    (st : List LayoutBox × List Bool) (hnd : idxs.Nodup) (hb : ∀ j ∈ idxs, j < st.2.length) :
    (improvedClassLoop thr S idxs st).1
        = st.1 ++ nmsLoop thr (idxs.map (boxAt S)) (idxs.map (fun j => st.2.getD j false)) ∧
    (improvedClassLoop thr S idxs st).2.length = st.2.length ∧
    ∀ i, i ∉ idxs → (improvedClassLoop thr S idxs st).2.getD i false = st.2.getD i false := by
  induction idxs generalizing st with
  | nil => simp [improvedClassLoop, nmsLoop]
  | cons idx rest ih =>
    have hnd' := List.nodup_cons.1 hnd
    have hrest : ∀ j ∈ rest, j < st.2.length := fun j hj => hb j (List.mem_cons_of_mem _ hj)
    unfold improvedClassLoop
    simp only [List.map_cons, nmsLoop, List.headD_cons, List.tail_cons]
    split_ifs with hf
    · obtain ⟨h1, h2, h3⟩ := ih st hnd'.2 hrest
      refine ⟨h1, h2, ?_⟩
      intro i hi
      simp only [List.mem_cons, not_or] at hi
      exact h3 i hi.2
    · obtain ⟨h1, h2, h3⟩ := ih (st.1 ++ [boxAt S idx], markImproved thr S idx rest st.2)
        hnd'.2 (fun j hj => by
          show j < (markImproved thr S idx rest st.2).length
          rw [markImproved_length]
          exact hrest j hj)
      refine ⟨?_, ?_, ?_⟩
      · rw [h1]
        simp only
        rw [markImproved_local thr S idx rest st.2 hnd'.2 hrest]
        simp
      · rw [h2]
        exact markImproved_length _ _ _ _ _
      · intro i hi
        simp only [List.mem_cons, not_or] at hi
        rw [h3 i hi.2]
        exact markImproved_outside _ _ _ _ _ _ hi.2

/-- Over class groups with pairwise disjoint index lists whose flags are all clear, the
class loops of `nmsBoxesImproved` return the concatenation of the per-class `nmsLoop`
results. -/
theorem improvedFold_eq (thr : ℚ) (S : List LayoutBox) (m : List (Int × List Nat))
    (st : List LayoutBox × List Bool)
    (hm : ∀ p ∈ m, p.2.Nodup ∧ ∀ j ∈ p.2, j < st.2.length ∧ st.2.getD j false = false)
    (hdis : m.Pairwise (fun p q => ∀ j ∈ q.2, j ∉ p.2)) :
    (m.foldl (fun st classPair => improvedClassLoop thr S classPair.2 st) st).1
      = st.1 ++ m.flatMap
          (fun p => nmsLoop thr (p.2.map (boxAt S)) (List.replicate p.2.length false)) := by
  induction m generalizing st with
  | nil => simp
  | cons p rest ih =>
    obtain ⟨hp1, hp2⟩ := hm p (List.mem_cons_self _ _)
    obtain ⟨h1, h2, h3⟩ := improvedClassLoop_eq thr S p.2 st hp1 (fun j hj => (hp2 j hj).1)
    have hdis' := List.pairwise_cons.1 hdis
    simp only [List.foldl_cons, List.flatMap_cons]
    rw [ih (improvedClassLoop thr S p.2 st) ?_ hdis'.2, h1]
    · have hflags : p.2.map (fun j => st.2.getD j false) = List.replicate p.2.length false := by
        rw [← List.map_const]
        exact List.map_congr_left (fun j hj => (hp2 j hj).2)
      rw [hflags, List.append_assoc]
    · intro q hq
      obtain ⟨hq1, hq2⟩ := hm q (List.mem_cons_of_mem _ hq)
      refine ⟨hq1, ?_⟩
      intro j hj
      rw [h2, h3 j (hdis'.1 q hq j hj)]
      exact hq2 j hj

/-! ## The index groups of `nmsBoxesImproved` against `classGroups` -/

theorem indexPush_map (g : Nat → LayoutBox) (m : List (Int × List Nat)) (k : Int) (i : Nat) :
    (indexPush m k i).map (fun p => (p.1, p.2.map g))
      = groupPush (m.map (fun p => (p.1, p.2.map g))) k (g i) := by
  induction m with
  | nil => simp [indexPush, groupPush]
  | cons q rest ih =>
    obtain ⟨kq, v⟩ := q
    unfold indexPush
    simp only [List.map_cons, groupPush]
    split_ifs with h1 h2
    · simp
    · simp
    · simp only [List.map_cons, ih]

theorem indexPush_increasing (m : List (Int × List Nat)) (k : Int) (i : Nat)
    (h : ∀ p ∈ m, p.2.Pairwise (fun a b => a < b) ∧ ∀ j ∈ p.2, j < i) :
    ∀ p ∈ indexPush m k i, p.2.Pairwise (fun a b => a < b) ∧ ∀ j ∈ p.2, j < i + 1 := by
  induction m with
  | nil =>
    intro p hp
    simp only [indexPush, List.mem_singleton] at hp
    rw [hp]
    simp
  | cons q rest ih =>
    obtain ⟨kq, v⟩ := q
    have hq := h (kq, v) (List.mem_cons_self _ _)
    have hrest : ∀ p ∈ rest, p.2.Pairwise (fun a b => a < b) ∧ ∀ j ∈ p.2, j < i :=
      fun p hp => h p (List.mem_cons_of_mem _ hp)
    have hold : ∀ p : Int × List Nat,
        (p.2.Pairwise (fun a b => a < b) ∧ ∀ j ∈ p.2, j < i) →
        (p.2.Pairwise (fun a b => a < b) ∧ ∀ j ∈ p.2, j < i + 1) :=
      fun p hp => ⟨hp.1, fun j hj => Nat.lt_succ_of_lt (hp.2 j hj)⟩
    intro p hp
    unfold indexPush at hp
    split_ifs at hp with h1 h2
    · rcases List.mem_cons.1 hp with hp | hp
      · rw [hp]
        simp
      · exact hold p (h p hp)
    · rcases List.mem_cons.1 hp with hp | hp
      · rw [hp]
        simp only
        refine ⟨?_, ?_⟩
        · rw [List.pairwise_append]
          refine ⟨hq.1, by simp, ?_⟩
          intro a ha b hb
          rw [List.mem_singleton.1 hb]
          exact hq.2 a ha
        · intro j hj
          rcases List.mem_append.1 hj with hj | hj
          · exact Nat.lt_succ_of_lt (hq.2 j hj)
          · rw [List.mem_singleton.1 hj]
            exact Nat.lt_succ_self i
      · exact hold p (hrest p hp)
    · rcases List.mem_cons.1 hp with hp | hp
      · rw [hp]
        exact hold _ hq
      · exact ih hrest p hp

theorem classIndices_snoc (S : List LayoutBox) (b : LayoutBox) :
    classIndices (S ++ [b]) = indexPush (classIndices S) b.type S.length := by
  simp [classIndices, List.enum_append, List.foldl_append, List.enumFrom_singleton]

theorem classIndices_increasing (S : List LayoutBox) :
    ∀ p ∈ classIndices S, p.2.Pairwise (fun a b => a < b) ∧ ∀ j ∈ p.2, j < S.length := by
  induction S using List.reverseRecOn with
  | nil => simp [classIndices]
  | append_singleton S b ih =>
    rw [classIndices_snoc, List.length_append, List.length_singleton]
    exact indexPush_increasing _ _ _ ih

theorem boxAt_append_left (S : List LayoutBox) (b : LayoutBox) (j : Nat) (hj : j < S.length) :
    boxAt (S ++ [b]) j = boxAt S j := by
  unfold boxAt
  exact List.getD_append _ _ _ _ hj

theorem boxAt_append_length (S : List LayoutBox) (b : LayoutBox) :
    boxAt (S ++ [b]) S.length = b := by
  unfold boxAt
  rw [List.getD_append_right _ _ _ _ (le_refl _)]
  simp

/-- Reading the boxes at the indices of `classIndices` gives the map `classGroups`. -/
theorem classIndices_groups (S : List LayoutBox) :
    (classIndices S).map (fun p => (p.1, p.2.map (boxAt S))) = classGroups S := by
  induction S using List.reverseRecOn with
  | nil => simp [classIndices, classGroups]
  | append_singleton S b ih =>
    rw [classIndices_snoc, classGroups_snoc, indexPush_map, boxAt_append_length, ← ih]
    congr 1
    apply List.map_congr_left
    intro p hp
    have hb := (classIndices_increasing S p hp).2
    congr 1
    exact List.map_congr_left (fun j hj => boxAt_append_left S b j (hb j hj))

/-! ## The two duplicate suppressions under every admissible sort -/

theorem classGroups_key_present (L : List LayoutBox) (k : Int)
    (hk : k ∈ (classGroups L).map Prod.fst) : ∃ b ∈ L, b.type = k := by
  induction L using List.reverseRecOn with
  | nil => simp [classGroups] at hk
  | append_singleton L b ih =>
    rw [classGroups_snoc, groupPush_keys] at hk
    rcases hk with hk | hk
    · exact ⟨b, by simp, hk.symm⟩
    · obtain ⟨c, hc, hck⟩ := ih hk
      exact ⟨c, List.mem_append_left _ hc, hck⟩

theorem classGroups_eq_keys_map (L : List LayoutBox) :
    classGroups L
      = ((classGroups L).map Prod.fst).map
          (fun k => (k, L.filter (fun x => decide (x.type = k)))) := by
  obtain ⟨_, hv, _⟩ := classGroups_inv L
  rw [List.map_map]
  conv_lhs => rw [← List.map_id (classGroups L)]
  apply List.map_congr_left
  intro p hp
  show p = (p.1, L.filter (fun x => decide (x.type = p.1)))
  rw [← hv p hp]

/-- The keys of the grouping map depend only on the boxes present, not on their order. -/
theorem classGroups_keys_perm (L₁ L₂ : List LayoutBox) (h : L₁.Perm L₂) :
    (classGroups L₁).map Prod.fst = (classGroups L₂).map Prod.fst := by
  obtain ⟨hs1, _, hc1⟩ := classGroups_inv L₁
  obtain ⟨hs2, _, hc2⟩ := classGroups_inv L₂
  have hnd1 : ((classGroups L₁).map Prod.fst).Nodup := hs1.imp (fun hlt => ne_of_lt hlt)
  have hnd2 : ((classGroups L₂).map Prod.fst).Nodup := hs2.imp (fun hlt => ne_of_lt hlt)
  refine List.eq_of_perm_of_sorted ((List.perm_ext_iff_of_nodup hnd1 hnd2).2 ?_) hs1 hs2
  intro k
  constructor
  · intro hk
    obtain ⟨b, hb, hbk⟩ := classGroups_key_present L₁ k hk
    exact hbk ▸ hc2 b (h.mem_iff.1 hb)
  · intro hk
    obtain ⟨b, hb, hbk⟩ := classGroups_key_present L₂ k hk
    exact hbk ▸ hc1 b (h.mem_iff.2 hb)

theorem sortByScore_isScoreSort : IsScoreSort sortByScore :=
  fun l => ⟨sortByScore_perm l, sortByScore_sorted l⟩

theorem lengthDependentSort_isScoreSort : IsScoreSort lengthDependentSort := by
  intro l
  unfold lengthDependentSort
  split_ifs
  · exact ⟨sortByScore_perm l, sortByScore_sorted l⟩
  · exact ⟨(sortByScore_perm l.reverse).trans (List.reverse_perm l),
      sortByScore_sorted l.reverse⟩

theorem nmsBoxesWith_sortByScore (L : List LayoutBox) (thr : ℚ) :
    nmsBoxesWith sortByScore L thr = nmsBoxes L thr := rfl

theorem nmsBoxesWith_eq_flatMap (srt : List LayoutBox → List LayoutBox) (L : List LayoutBox)
    (thr : ℚ) :
    nmsBoxesWith srt L thr = (classGroups L).flatMap (fun p => nmsClassWith srt thr p.2) := by
  unfold nmsBoxesWith
  split_ifs with h
  · have hL : L = [] := by simpa using h
    subst hL
    simp [classGroups]
  · rw [foldl_append_flatMap]
    simp

/-- The loop of `nmsBoxesImproved` over a vector `S` gives, class after class, what the
suppression loop of `nmsBoxes` gives on the boxes of that class in the order of `S`. -/
theorem improvedLoop_eq_flatMap (S : List LayoutBox) (thr : ℚ) :
    ((classIndices S).foldl (fun st classPair => improvedClassLoop thr S classPair.2 st)
        ([], List.replicate S.length false)).1
      = (classGroups S).flatMap
          (fun q => nmsLoop thr q.2 (List.replicate q.2.length false)) := by
  obtain ⟨hs, hv, _⟩ := classGroups_inv S
  have hgroups := classIndices_groups S
  have htype : ∀ p ∈ classIndices S, ∀ j ∈ p.2, (boxAt S j).type = p.1 := by
    intro p hp j hj
    have hmem : (p.1, p.2.map (boxAt S)) ∈ classGroups S := by
      rw [← hgroups]
      exact List.mem_map.2 ⟨p, hp, rfl⟩
    have hval := hv _ hmem
    simp only at hval
    have hin : boxAt S j ∈ p.2.map (boxAt S) := List.mem_map.2 ⟨j, hj, rfl⟩
    rw [hval] at hin
    simpa using (List.mem_filter.1 hin).2
  have hkeys : (classIndices S).Pairwise (fun p q => p.1 < q.1) := by
    have : ((classIndices S).map Prod.fst).Pairwise (fun a c => a < c) := by
      have hfst : (classIndices S).map Prod.fst = (classGroups S).map Prod.fst := by
        rw [← hgroups, List.map_map]
        rfl
      rw [hfst]
      exact hs
    exact List.pairwise_map.1 this
  rw [improvedFold_eq thr S (classIndices S) ([], _) ?_ ?_]
  · rw [← hgroups, List.flatMap_map]
    simp
  · intro p hp
    obtain ⟨hinc, hb⟩ := classIndices_increasing S p hp
    refine ⟨hinc.imp (fun hlt => ne_of_lt hlt), ?_⟩
    intro j hj
    refine ⟨by simpa using hb j hj, ?_⟩
    show (List.replicate S.length false).getD j false = false
    rw [List.getD_eq_getElem?_getD, List.getElem?_replicate]
    split_ifs <;> rfl
  · refine hkeys.imp_of_mem ?_
    intro p q hp hq hlt j hjq hjp
    have h1 := htype p hp j hjp
    have h2 := htype q hq j hjq
    omega

theorem nmsBoxesImprovedWith_eq_flatMap (srt : List LayoutBox → List LayoutBox)
    (hsrt : IsScoreSort srt) (L : List LayoutBox) (thr : ℚ) :
    nmsBoxesImprovedWith srt L thr
      = (classGroups (srt L)).flatMap
          (fun q => nmsLoop thr q.2 (List.replicate q.2.length false)) := by
  unfold nmsBoxesImprovedWith
  split_ifs with h
  · have hL : L = [] := by simpa using h
    subst hL
    have hnil : srt [] = [] := List.perm_nil.1 (hsrt []).1
    rw [hnil]
    simp [classGroups]
  · exact improvedLoop_eq_flatMap (srt L) thr

/-- Two descending arrangements of the same boxes are equal when boxes with equal scores
are equal. -/
theorem scoreSorted_unique (l₁ l₂ : List LayoutBox) (hp : l₁.Perm l₂)
    (h1 : l₁.Pairwise (fun a b => b.score ≤ a.score))
    (h2 : l₂.Pairwise (fun a b => b.score ≤ a.score))
    (hties : ∀ a ∈ l₁, ∀ b ∈ l₁, a.score = b.score → a = b) : l₁ = l₂ := by
  haveI : IsAntisymm LayoutBox (fun a b => b.score < a.score ∨ a = b) :=
    ⟨fun a b hab hba => by
      rcases hab with hab | hab
      · rcases hba with hba | hba
        · exact absurd hab (not_lt.2 hba.le)
        · exact hba.symm
      · exact hab⟩
  have hs1 : l₁.Pairwise (fun a b => b.score < a.score ∨ a = b) := by
    refine h1.imp_of_mem ?_
    intro a b ha hb hab
    rcases lt_or_eq_of_le hab with hlt | heq
    · exact Or.inl hlt
    · exact Or.inr (hties a ha b hb heq.symm)
  have hs2 : l₂.Pairwise (fun a b => b.score < a.score ∨ a = b) := by
    refine h2.imp_of_mem ?_
    intro a b ha hb hab
    rcases lt_or_eq_of_le hab with hlt | heq
    · exact Or.inl hlt
    · exact Or.inr (hties a (hp.mem_iff.2 ha) b (hp.mem_iff.2 hb) heq.symm)
  exact List.eq_of_perm_of_sorted hp hs1 hs2

/-- Grouping a sorted vector gives, under every key, the sorted group of that key, when
different boxes of one category have different scores. -/
theorem classGroups_sorted (s₁ s₂ : List LayoutBox → List LayoutBox) (h₁ : IsScoreSort s₁)
    (h₂ : IsScoreSort s₂) (L : List LayoutBox)
    (hties : ∀ a ∈ L, ∀ b ∈ L, a.type = b.type → a.score = b.score → a = b) :
    classGroups (s₂ L) = (classGroups L).map (fun p => (p.1, s₁ p.2)) := by
  have hL := classGroups_eq_keys_map L
  calc classGroups (s₂ L)
      = ((classGroups L).map Prod.fst).map
          (fun k => (k, (s₂ L).filter (fun x => decide (x.type = k)))) := by
        rw [classGroups_eq_keys_map (s₂ L), classGroups_keys_perm _ _ (h₂ L).1]
    _ = ((classGroups L).map Prod.fst).map
          (fun k => (k, s₁ (L.filter (fun x => decide (x.type = k))))) := by
        apply List.map_congr_left
        intro k _
        congr 1
        refine scoreSorted_unique _ _ ?_ ((h₂ L).2.filter _) (h₁ _).2 ?_
        · exact ((h₂ L).1.filter _).trans (h₁ _).1.symm
        · intro a ha b hb hab
          obtain ⟨ha1, ha2⟩ := List.mem_filter.1 ha
          obtain ⟨hb1, hb2⟩ := List.mem_filter.1 hb
          have hta : a.type = k := by simpa using ha2
          have htb : b.type = k := by simpa using hb2
          exact hties a ((h₂ L).1.mem_iff.1 ha1) b ((h₂ L).1.mem_iff.1 hb1)
            (hta.trans htb.symm) hab
    _ = (((classGroups L).map Prod.fst).map
          (fun k => (k, L.filter (fun x => decide (x.type = k))))).map
            (fun p => (p.1, s₁ p.2)) := by
        simp only [List.map_map]
        rfl
    _ = (classGroups L).map (fun p => (p.1, s₁ p.2)) := by
        rw [← hL]

/-- Without ties inside a category the two functions agree, whatever the sorts do. -/
theorem nmsBoxesWith_eq_improvedWith (s₁ s₂ : List LayoutBox → List LayoutBox)
    (h₁ : IsScoreSort s₁) (h₂ : IsScoreSort s₂) (L : List LayoutBox) (thr : ℚ)
    (hties : ∀ a ∈ L, ∀ b ∈ L, a.type = b.type → a.score = b.score → a = b) :
    nmsBoxesWith s₁ L thr = nmsBoxesImprovedWith s₂ L thr := by
  rw [nmsBoxesWith_eq_flatMap, nmsBoxesImprovedWith_eq_flatMap s₂ h₂,
    classGroups_sorted s₁ s₂ h₁ h₂ L hties, List.flatMap_map]
  rfl

/-- The result of `nmsBoxes` runs through the categories in ascending order and, inside a
category, through the scores in descending order. -/
theorem nmsBoxes_ordered (L : List LayoutBox) (thr : ℚ) :
    (nmsBoxes L thr).Pairwise
      (fun a b => a.type < b.type ∨ (a.type = b.type ∧ b.score ≤ a.score)) := by
  obtain ⟨hs, hv, _⟩ := classGroups_inv L
  rw [nmsBoxes_eq_flatMap, List.pairwise_flatMap]
  constructor
  · intro p hp
    have hsub := nmsClass_sublist thr p.2
    have hsorted := (sortByScore_sorted p.2).sublist hsub
    refine List.Pairwise.imp_of_mem ?_ hsorted
    intro a b ha hb hab
    right
    have ha2 := nmsClass_subset thr p.2 ha
    have hb2 := nmsClass_subset thr p.2 hb
    rw [hv p hp] at ha2 hb2
    have h1 : a.type = p.1 := by simpa using (List.mem_filter.1 ha2).2
    have h2 : b.type = p.1 := by simpa using (List.mem_filter.1 hb2).2
    exact ⟨h1.trans h2.symm, hab⟩
  · have hkeys : (classGroups L).Pairwise (fun p q => p.1 < q.1) := List.pairwise_map.1 hs
    refine hkeys.imp_of_mem ?_
    intro p q hp hq hlt x hx y hy
    left
    have hx2 := nmsClass_subset thr p.2 hx
    have hy2 := nmsClass_subset thr q.2 hy
    rw [hv p hp] at hx2
    rw [hv q hq] at hy2
    have h1 : x.type = p.1 := by simpa using (List.mem_filter.1 hx2).2
    have h2 : y.type = q.1 := by simpa using (List.mem_filter.1 hy2).2
    omega

/-! ## Claim on the agreement of the two duplicate suppressions -/

theorem cRound_intCast (n : Int) : cRound (n : ℚ) = n := by
  apply cRound_eq_of_near <;> linarith

theorem decoderGain_ge_one (W H : Int) (hW : 1 ≤ W) (hH : 1 ≤ H) (hW' : W ≤ 1024)
    (hH' : H ≤ 1024) : 1 ≤ decoderGain W H := by
  have hwq : (0 : ℚ) < W := by exact_mod_cast (by omega : (0 : Int) < W)
  have hhq : (0 : ℚ) < H := by exact_mod_cast (by omega : (0 : Int) < H)
  have hw' : (W : ℚ) ≤ 1024 := by exact_mod_cast hW'
  have hh' : (H : ℚ) ≤ 1024 := by exact_mod_cast hH'
  unfold decoderGain INPUT_WIDTH INPUT_HEIGHT
  push_cast
  exact le_min ((one_le_div hwq).2 hw') ((one_le_div hhq).2 hh')

theorem decoderPadW_near (W H : Int) : |(preprocessImage W H).padW - decoderPadW W H| ≤ 1 := by
  have hdw := abs_le.1 (cRound_dist (W * decoderGain W H))
  rw [preprocessImage_padW, preprocessImage_newW]
  unfold decoderPadW INPUT_WIDTH
  apply cRound_near
  rw [abs_le]
  push_cast
  constructor <;> linarith

theorem decoderPadH_near (W H : Int) : |(preprocessImage W H).padH - decoderPadH W H| ≤ 1 := by
  have hdh := abs_le.1 (cRound_dist (H * decoderGain W H))
  rw [preprocessImage_padH, preprocessImage_newH]
  unfold decoderPadH INPUT_HEIGHT
  apply cRound_near
  rw [abs_le]
  push_cast
  constructor <;> linarith

/-- On a source that is not shrunk the two left paddings differ by less than the gain:
by at most one when the gain exceeds 1, and not at all when the gain is 1. -/
theorem padW_shift_lt_gain (W H : Int) (hg : 1 ≤ decoderGain W H) :
    |((preprocessImage W H).padW : ℚ) - decoderPadW W H| < decoderGain W H := by
  rcases eq_or_lt_of_le hg with h1 | h1
  · have he : (preprocessImage W H).padW = decoderPadW W H := by
      rw [preprocessImage_padW, preprocessImage_newW]
      unfold decoderPadW INPUT_WIDTH
      rw [← h1, mul_one, cRound_intCast]
      push_cast
      rfl
    rw [he, sub_self, abs_zero, ← h1]
    norm_num
  · have h := decoderPadW_near W H
    have h' : |((preprocessImage W H).padW : ℚ) - decoderPadW W H| ≤ 1 := by
      exact_mod_cast h
    linarith

theorem padH_shift_lt_gain (W H : Int) (hg : 1 ≤ decoderGain W H) :
    |((preprocessImage W H).padH : ℚ) - decoderPadH W H| < decoderGain W H := by
  rcases eq_or_lt_of_le hg with h1 | h1
  · have he : (preprocessImage W H).padH = decoderPadH W H := by
      rw [preprocessImage_padH, preprocessImage_newH]
      unfold decoderPadH INPUT_HEIGHT
      rw [← h1, mul_one, cRound_intCast]
      push_cast
      rfl
    rw [he, sub_self, abs_zero, ← h1]
    norm_num
  · have h := decoderPadH_near W H
    have h' : |((preprocessImage W H).padH : ℚ) - decoderPadH W H| ≤ 1 := by
      exact_mod_cast h
    linarith

/-- Inverting a coordinate laid out with padding `padP` by subtracting `padD` shifts it
by `(padP - padD) / g`. -/
theorem invertCoord_letterboxCoord (g : ℚ) (padP padD x bound : Int) (hg : 0 < g) :
    invertCoord (letterboxCoord g padP x) padD g bound
      = clip ((x : ℚ) + ((padP : ℚ) - padD) / g) bound := by
  unfold invertCoord letterboxCoord
  congr 1
  field_simp
  ring

theorem shift_lt_one (g d : ℚ) (hg : 0 < g) (hd : |d| < g) : |d / g| < 1 := by
  rw [abs_div, abs_of_pos hg, div_lt_one hg]
  exact hd

/-- A coordinate inside `[0, bound]` shifted by less than one pixel and clipped stays
within less than one pixel of its position. -/
theorem clip_shift_near (x bound : Int) (e : ℚ) (hx0 : 0 ≤ x) (hxb : x ≤ bound)
    (he : |e| < 1) : |clip ((x : ℚ) + e) bound - x| < 1 := by
  have hx0q : (0 : ℚ) ≤ x := by exact_mod_cast hx0
  have hxbq : (x : ℚ) ≤ bound := by exact_mod_cast hxb
  obtain ⟨he1, he2⟩ := abs_lt.1 he
  unfold clip
  rw [abs_lt]
  constructor
  · have : (x : ℚ) - 1 < max 0 (min ((x : ℚ) + e) bound) := by
      apply lt_max_of_lt_right
      apply lt_min <;> linarith
    linarith
  · have : max 0 (min ((x : ℚ) + e) bound) < (x : ℚ) + 1 := by
      apply max_lt
      · linarith
      · exact lt_of_le_of_lt (min_le_left _ _) (by linarith)
    linarith

/-- Truncation of a non-negative value that is less than one away from a whole number
is at most one away from it. -/
theorem toInt_near (y : ℚ) (x : Int) (hy : 0 ≤ y) (h : |y - x| < 1) : |toInt y - x| ≤ 1 := by
  obtain ⟨h1, h2⟩ := abs_lt.1 h
  unfold toInt
  rw [if_pos hy, abs_le]
  constructor
  · have : x - 1 ≤ ⌊y⌋ := Int.le_floor.2 (by push_cast; linarith)
    omega
  · have : ⌊y⌋ < x + 1 := Int.floor_lt.2 (by push_cast; linarith)
    omega

/-- Two ordered coordinates inside `[0, bound]` shifted by the same amount of less than
one pixel stay strictly ordered after the clipping. -/
theorem clip_shift_lt (x1 x2 bound : Int) (e : ℚ) (hx1 : 0 ≤ x1) (hx : x1 < x2)
    (hx2 : x2 ≤ bound) (he : |e| < 1) :
    clip ((x1 : ℚ) + e) bound < clip ((x2 : ℚ) + e) bound := by
  obtain ⟨he1, he2⟩ := abs_lt.1 he
  have h1 : (x1 : ℚ) + 1 ≤ x2 := by exact_mod_cast hx
  have h2 : (x2 : ℚ) ≤ bound := by exact_mod_cast hx2
  have h0 : (0 : ℚ) ≤ x1 := by exact_mod_cast hx1
  unfold clip
  have ha : min ((x1 : ℚ) + e) bound = (x1 : ℚ) + e := min_eq_left (by linarith)
  rw [ha]
  apply max_lt
  · apply lt_max_of_lt_right
    apply lt_min <;> linarith
  · apply lt_max_of_lt_right
    apply lt_min <;> linarith

end LayoutNet
